import Mathlib

/-!
Shallow embedding of the identity-reconciliation merge algorithm of the
OneMed1a frontend (the `MediaPage` component,
`src/onemed1a-frontend/src/app/collection/books/[id]/page.js`, lines 393-501),
together with proofs and refutations of the specification's claims about it.

JavaScript strings are Lean `String`s; the handful of string operations the
source uses (`trim`, `toLowerCase`, `slice(0,4)`, `Number(...)`,
`startsWith`) are re-implemented by structural recursion on the character
list so that the kernel can evaluate them.  JavaScript's `undefined`/absent
fields are `Option`; the loosely typed `year` field (a string on external
items, a number or NaN on tracked-only items) is the inductive `JVal`.
A JavaScript `Map` is an insertion-ordered association list (`JMap`):
`set` on a present key updates the entry in place, otherwise appends.
-/

namespace OneMedia

-- ## JS string primitives

/-- Whitespace test used by `trim`. -/
def wsp (c : Char) : Bool := c.isWhitespace

/-- Trim a character list on both ends (JS `String.prototype.trim`). -/
def trimL (l : List Char) : List Char :=
  ((l.dropWhile wsp).reverse.dropWhile wsp).reverse

/-- JS `s.trim()`. -/
def jsTrim (s : String) : String := ⟨trimL s.data⟩

/-- JS `s.toLowerCase()` (ASCII, which is all the source compares). -/
def jsLower (s : String) : String := ⟨s.data.map Char.toLower⟩

/-- JS `s.slice(0, n)` for a nonnegative `n`. -/
def jsSlice (s : String) (n : Nat) : String := ⟨s.data.take n⟩

/-- JS `s.startsWith(p)`. -/
def jsStarts (p s : String) : Bool := go p.data s.data where
  go : List Char → List Char → Bool
    | [], _ => true
    | _ :: _, [] => false
    | a :: as, b :: bs => a == b && go as bs

/-- Value of a decimal digit. -/
def digitVal (c : Char) : Option Nat :=
  if c.isDigit then some (c.toNat - '0'.toNat) else none

/-- Accumulate decimal digits; `none` on the first non-digit. -/
def digitsVal : Nat → List Char → Option Nat
  | acc, [] => some acc
  | acc, c :: cs =>
    match digitVal c with
    | some d => digitsVal (acc * 10 + d) cs
    | none => none

/-- Parse a nonempty all-digit list. -/
def parseDigits : List Char → Option Nat
  | [] => none
  | l => digitsVal 0 l

/-- JS `Number(s)` on the strings this code feeds it (optionally signed
decimal integers): `none` models NaN, and the empty / all-whitespace string
converts to `0` as in JS. -/
def jsToNumber (s : String) : Option Int :=
  match trimL s.data with
  | [] => some 0
  | '-' :: rest => (parseDigits rest).map (fun n => -(n : Int))
  | '+' :: rest => (parseDigits rest).map (fun n => (n : Int))
  | l => (parseDigits l).map (fun n => (n : Int))

-- ## JS optional strings and loose values

/-- JS truthiness of a possibly-absent string (`undefined` and `""` are falsy). -/
def truthyS : Option String → Bool
  | none => false
  | some s => !s.data.isEmpty

/-- JS `a || b` on possibly-absent strings: `a` when truthy, else `b`. -/
def orS (a b : Option String) : Option String := if truthyS a then a else b

/-- JS `String(x)` on a string-or-undefined value. -/
def jsString : Option String → String
  | none => "undefined"
  | some s => s

/-- A loosely typed JS value, as stored in the `year` field: `undefined`,
`NaN`, a number, or a string. -/
inductive JVal where
  | undefined
  | nan
  | num (n : Int)
  | str (s : String)
deriving DecidableEq, Repr

/-- JS truthiness of a `JVal`. -/
def JVal.truthy : JVal → Bool
  | .undefined => false
  | .nan => false
  | .num n => n != 0
  | .str s => !s.data.isEmpty

/-- JS `String(v)`. -/
def JVal.toStr : JVal → String
  | .undefined => "undefined"
  | .nan => "NaN"
  | .num n => toString n
  | .str s => s

/-- JS `v == null` (loose equality: true exactly for `null`/`undefined`). -/
def JVal.isNullish : JVal → Bool
  | .undefined => true
  | _ => false

/-- The source's `toYear`: `(dateStr) => (dateStr ? Number(String(dateStr).slice(0, 4)) : undefined)`.
The result is `undefined`, a number, or NaN. -/
def toYear (dateStr : Option String) : JVal :=
  if truthyS dateStr then
    match jsToNumber (jsSlice (jsString dateStr) 4) with
    | some n => .num n
    | none => .nan
  else .undefined

-- ## Image URL helpers (lines 191-221 of the source)

def TMDB_IMG_BASE : String := "https://image.tmdb.org/t/p/"

/-- The source's `isFullUrl`: `/^https?:\/\//i.test(value)`. -/
def isFullUrl (v : String) : Bool :=
  jsStarts "http://" (jsLower v) || jsStarts "https://" (jsLower v)

/-- The source's `withSize`. -/
def withSize (path : Option String) (size : String) : Option String :=
  match path with
  | none => none
  | some p0 =>
    if p0.data.isEmpty then none
    else if isFullUrl p0 then some p0
    else
      let p := if jsStarts "/" p0 then p0 else "/" ++ p0
      some (TMDB_IMG_BASE ++ size ++ p)

/-- The source's `pickCover` with its default sizes. -/
def pickCover (posterPath backdropPath : Option String) : String :=
  match withSize posterPath "w342" with
  | some u => u
  | none =>
    match withSize backdropPath "w780" with
    | some u => u
    | none => "/next.svg"

-- ## JS Map model

/-- A JS `Map` with string keys: an insertion-ordered association list.
`set` on a present key updates the entry in place, otherwise appends;
iteration (`entries()`) is in insertion order. -/
structure JMap (β : Type) where
  entries : List (String × β) := []
deriving DecidableEq, Repr

/-- Lookup in an association list (first entry with the key). -/
def lookupL {β : Type} : List (String × β) → String → Option β
  | [], _ => none
  | p :: rest, k => if p.1 = k then some p.2 else lookupL rest k

/-- Insert-or-update in an association list, keeping insertion order:
the first entry with the key is replaced in place, otherwise the pair is
appended at the end. -/
def setL {β : Type} : List (String × β) → String → β → List (String × β)
  | [], k, v => [(k, v)]
  | p :: rest, k, v => if p.1 = k then (k, v) :: rest else p :: setL rest k v

/-- JS `map.get(k)` (as an `Option`). -/
def JMap.get? {β : Type} (m : JMap β) (k : String) : Option β :=
  lookupL m.entries k

/-- JS `map.has(k)`. -/
def JMap.has {β : Type} (m : JMap β) (k : String) : Bool :=
  (m.get? k).isSome

/-- JS `map.set(k, v)`. -/
def JMap.set {β : Type} (m : JMap β) (k : String) (v : β) : JMap β :=
  ⟨setL m.entries k v⟩

/-- The keys of the map, in insertion order. -/
def JMap.keys {β : Type} (m : JMap β) : List String :=
  m.entries.map Prod.fst

-- ## Data model

/-- One record of the external discovery feed (input boundary A): the raw
`m` the source maps over. All fields may be absent. -/
structure ExtRaw where
  mediaId : Option String := none
  externalMediaId : Option String := none
  id : Option String := none
  title : Option String := none
  type : Option String := none
  releaseDate : Option String := none
  rating : Option Int := none
  posterUrl : Option String := none
  backdropUrl : Option String := none
deriving DecidableEq, Repr

/-- The `media` sub-object of a user-media-status record. -/
structure Media where
  mediaId : Option String := none
  externalMediaId : Option String := none
  title : Option String := none
  type : Option String := none
  releaseDate : Option String := none
  posterUrl : Option String := none
  backdropUrl : Option String := none
deriving DecidableEq, Repr

/-- One user-media-status record (input boundary B): the `ums` of the loop. -/
structure UMS where
  media : Option Media := none
  status : Option String := none
  rating : Option Int := none
  id : Option String := none
deriving DecidableEq, Repr

/-- The merged display unit built by the reconciler (one element of `items`). -/
structure Item where
  id : String := ""
  title : String := ""
  type : String := ""
  year : JVal := .undefined
  rating : Option Int := none
  coverUrl : String := ""
  href : String := ""
  status : Option String := none
  raw : Option ExtRaw := none
deriving DecidableEq, Repr

-- ## Building the external items (lines 393-412)

/-- `String(m.mediaId || m.externalMediaId || m.id)`: the canonical id of an
external record. -/
def canonicalOf (m : ExtRaw) : String :=
  jsString (orS m.mediaId (orS m.externalMediaId m.id))

/-- The external item the source builds from a raw feed record
(lines 398-407): `title ?? "Untitled"`, lower-cased type, the year as the
4-character date prefix or `undefined`, a falsy rating dropped, and the
href from the lower-cased type and the canonical id. -/
def mkExternalItem (m : ExtRaw) : Item :=
  let canonical := canonicalOf m
  { id := canonical
    title := m.title.getD "Untitled"
    type := jsLower (m.type.getD "")
    year :=
      let p := jsSlice (m.releaseDate.getD "") 4
      if p.data.isEmpty then .undefined else .str p
    rating :=
      match m.rating with
      | some n => if n != 0 then some n else none
      | none => none
    coverUrl := pickCover m.posterUrl m.backdropUrl
    href := "/collection/" ++ jsLower (m.type.getD "") ++ "/" ++ canonical
    status := none
    raw := some m }

/-- One step of the `external.map` loop: build the item, overwrite the
`externalMap` entry for its canonical id, and register both raw identifiers
in the alias map (lines 395-412). -/
def buildStep (acc : List Item × JMap Item × JMap String) (m : ExtRaw) :
    List Item × JMap Item × JMap String :=
  let canonical := canonicalOf m
  let item := mkExternalItem m
  let exMap := acc.2.1.set canonical item
  let a1 :=
    if truthyS m.externalMediaId then acc.2.2.set (jsString m.externalMediaId) canonical
    else acc.2.2
  let a2 := if truthyS m.mediaId then a1.set (jsString m.mediaId) canonical else a1
  (acc.1 ++ [item], exMap, a2)

/-- `externalItems`, `externalMap` and the initial `aliasMap` built from the
raw feed. -/
def buildExternal (external : List ExtRaw) :
    List Item × JMap Item × JMap String :=
  external.foldl buildStep ([], ⟨[]⟩, ⟨[]⟩)

-- ## The tracked-record loop (lines 414-484)

/-- Mutable state of the loop: the accumulation map `itemsMap` and the alias
map. -/
structure St where
  itemsMap : JMap Item
  aliasMap : JMap String
deriving DecidableEq, Repr

/-- `ums.media ?? {}`. -/
def mediaOf (ums : UMS) : Media := ums.media.getD {}

/-- `m.mediaId ? String(m.mediaId) : null`. -/
def uInt (ums : UMS) : Option String :=
  if truthyS (mediaOf ums).mediaId then some (jsString (mediaOf ums).mediaId) else none

/-- `m.externalMediaId ? String(m.externalMediaId) : null`. -/
def uExt (ums : UMS) : Option String :=
  if truthyS (mediaOf ums).externalMediaId then some (jsString (mediaOf ums).externalMediaId)
  else none

/-- A guarded direct hit: `u && itemsMap.has(u)` then `u`. -/
def chkDirect (im : JMap Item) (u : Option String) : Option String :=
  match u with
  | some k => if im.has k then some k else none
  | none => none

/-- A guarded alias hit: `u && aliasMap.has(u)` then `aliasMap.get(u)`. -/
def chkAlias (am : JMap String) (u : Option String) : Option String :=
  match u with
  | some k => am.get? k
  | none => none

/-- The identifier-resolution cascade of lines 425-429, in the source's
order: internal id in `itemsMap`, external id through `aliasMap`, external
id in `itemsMap`, internal id through `aliasMap`. -/
def resolveCanonical (st : St) (ums : UMS) : Option String :=
  match chkDirect st.itemsMap (uInt ums) with
  | some c => some c
  | none =>
    match chkAlias st.aliasMap (uExt ums) with
    | some c => some c
    | none =>
      match chkDirect st.itemsMap (uExt ums) with
      | some c => some c
      | none => chkAlias st.aliasMap (uInt ums)

/-- `(m.title || "").trim().toLowerCase()`. -/
def titleKeyOf (ums : UMS) : String :=
  jsLower (jsTrim ((mediaOf ums).title.getD ""))

/-- `toYear(m.releaseDate) || (m.releaseDate ? String(m.releaseDate).slice(0,4) : undefined)`. -/
def yearKeyOf (ums : UMS) : JVal :=
  let ty := toYear (mediaOf ums).releaseDate
  if ty.truthy then ty
  else if truthyS (mediaOf ums).releaseDate then
    .str (jsSlice (jsString (mediaOf ums).releaseDate) 4)
  else .undefined

/-- The year clause of the fallback comparison (line 450):
`yearKey == null || extYear == null || String(extYear) === String(yearKey)`,
with `extYear = extItem.year || undefined`. -/
def yearOk (yearKey extYearRaw : JVal) : Bool :=
  let extYear := if extYearRaw.truthy then extYearRaw else .undefined
  yearKey.isNullish || extYear.isNullish || (extYear.toStr.data == yearKey.toStr.data)

/-- The whole fallback comparison for one external item (lines 448-450):
nonempty trimmed lower-cased title equal to the record's, and the year
clause. -/
def extMatches (titleKey : String) (yearKey : JVal) (extItem : Item) : Bool :=
  let extTitle := jsLower (jsTrim extItem.title)
  !extTitle.data.isEmpty && extTitle.data == titleKey.data && yearOk yearKey extItem.year

/-- The title+year fallback (lines 442-455): when the record's title key is
nonempty, scan `externalMap.entries()` in insertion order and return the key
of the first matching entry. -/
def fallbackCanonical (exMap : JMap Item) (ums : UMS) : Option String :=
  let titleKey := titleKeyOf ums
  let yearKey := yearKeyOf ums
  if titleKey.data.isEmpty then none
  else
    match exMap.entries.find? (fun p => extMatches titleKey yearKey p.2) with
    | some p => some p.1
    | none => none

/-- The id interpolated into the merged href: `${m.mediaId ?? ums.id}`
(nullish coalescing, so an empty-string `mediaId` is kept). -/
def idForHref (ums : UMS) : String :=
  match (mediaOf ums).mediaId with
  | some s => s
  | none => jsString ums.id

/-- The recomputed href of a merged or tracked-only entry:
`/collection/${(m.type || "").toLowerCase()}/${m.mediaId ?? ums.id}`. -/
def hrefOf (ums : UMS) : String :=
  "/collection/" ++ jsLower ((mediaOf ums).type.getD "") ++ "/" ++ idForHref ums

/-- The merge of a tracked record onto an existing entry (lines 433-437 and
458-462): `{ ...base, status, rating: ums.rating ?? base.rating, href }`. -/
def mergeOnto (base : Item) (ums : UMS) : Item :=
  { base with
    status := ums.status
    rating := match ums.rating with
      | some r => some r
      | none => base.rating
    href := hrefOf ums }

/-- `itemsMap.get(c) || externalMap.get(c) || {}`. -/
def baseFor (exMap : JMap Item) (st : St) (c : String) : Item :=
  match st.itemsMap.get? c with
  | some b => b
  | none =>
    match exMap.get? c with
    | some b => b
    | none => {}

/-- `String(m.mediaId || m.externalMediaId || ums.id)`: the synthesized key
of a tracked-only entry (line 468). -/
def newKeyOf (ums : UMS) : String :=
  jsString (orS (mediaOf ums).mediaId (orS (mediaOf ums).externalMediaId ums.id))

/-- The tracked-only item of lines 469-478. -/
def mkNewItem (ums : UMS) : Item :=
  let m := mediaOf ums
  { id := newKeyOf ums
    title := m.title.getD ""
    coverUrl := pickCover m.posterUrl m.backdropUrl
    year := toYear m.releaseDate
    type := jsLower (m.type.getD "")
    status := ums.status
    rating := ums.rating
    href := hrefOf ums
    raw := none }

/-- `if (umsExternal) aliasMap.set(umsExternal, c); if (umsInternal)
aliasMap.set(umsInternal, c);` -/
def registerAliases (am : JMap String) (ums : UMS) (c : String) : JMap String :=
  let a1 := match uExt ums with
    | some x => am.set x c
    | none => am
  match uInt ums with
  | some y => a1.set y c
  | none => a1

/-- One iteration of the tracked-record loop (lines 419-484). The returned
string is the canonical key the record landed on: the resolved id, the
fallback id, or the synthesized tracked-only key. -/
def stepR (exMap : JMap Item) (st : St) (ums : UMS) : St × String :=
  match resolveCanonical st ums with
  | some c =>
    (⟨st.itemsMap.set c (mergeOnto (baseFor exMap st c) ums),
      registerAliases st.aliasMap ums c⟩, c)
  | none =>
    match fallbackCanonical exMap ums with
    | some c =>
      (⟨st.itemsMap.set c (mergeOnto (baseFor exMap st c) ums),
        registerAliases st.aliasMap ums c⟩, c)
    | none =>
      let k := newKeyOf ums
      (⟨st.itemsMap.set k (mkNewItem ums),
        registerAliases st.aliasMap ums k⟩, k)

/-- `raw.filter((ums) => ums?.media?.type === wantedType)`. -/
def filterWanted (wantedType : String) (raw : List UMS) : List UMS :=
  raw.filter (fun ums =>
    match ums.media with
    | some med =>
      match med.type with
      | some t => t.data == wantedType.data
      | none => false
    | none => false)

/-- `for (const it of externalItems) itemsMap.set(String(it.id), { ...it })`. -/
def seedItems (externalItems : List Item) : JMap Item :=
  externalItems.foldl (fun im it => im.set it.id it) ⟨[]⟩

/-- The whole tracked loop, threading the state. -/
def runTracked (exMap : JMap Item) (st : St) (tracked : List UMS) : St :=
  tracked.foldl (fun s ums => (stepR exMap s ums).1) st

/-- The canonical key each tracked record landed on, in loop order. -/
def landedKeys (exMap : JMap Item) : St → List UMS → List String
  | _, [] => []
  | st, ums :: rest =>
    (stepR exMap st ums).2 :: landedKeys exMap (stepR exMap st ums).1 rest

-- ## Final flattening (lines 487-494)

/-- The final `items` list: for each external item push the `itemsMap` entry
under its id, then push every `itemsMap` entry whose key is not in
`externalMap`, in insertion order. -/
def finalize (externalItems : List Item) (exMap : JMap Item) (im : JMap Item) :
    List Item :=
  (externalItems.filterMap (fun it => im.get? it.id)) ++
    ((im.entries.filter (fun p => !exMap.has p.1)).map Prod.snd)

/-- The items built from the raw external feed. -/
def extItemsOf (external : List ExtRaw) : List Item := (buildExternal external).1

/-- The deduplicating canonical-id map over the external feed. -/
def exMapOf (external : List ExtRaw) : JMap Item := (buildExternal external).2.1

/-- The alias map seeded from the external feed. -/
def aMap0Of (external : List ExtRaw) : JMap String := (buildExternal external).2.2

/-- The loop state before the first tracked record. -/
def st0Of (external : List ExtRaw) : St :=
  ⟨seedItems (extItemsOf external), aMap0Of external⟩

/-- The reconciler: lines 393-494 of the source as one function from the raw
external feed and the raw user-media-status list to the display list. -/
def reconcile (wantedType : String) (external : List ExtRaw) (raw : List UMS) :
    List Item :=
  let tracked := filterWanted wantedType raw
  let stF := runTracked (exMapOf external) (st0Of external) tracked
  finalize (extItemsOf external) (exMapOf external) stF.itemsMap

/-- The landed keys of a whole reconciliation, in loop order. -/
def assignedKeys (wantedType : String) (external : List ExtRaw) (raw : List UMS) :
    List String :=
  landedKeys (exMapOf external) (st0Of external) (filterWanted wantedType raw)

-- ## Claim formalizations and auxiliary predicates

/-- The canonical ids of the external feed, in feed order. -/
def extIdsOf (external : List ExtRaw) : List String :=
  (extItemsOf external).map Item.id

/-- A display entry is derived from an external item: it agrees with it on
every field the merge leaves untouched (id, title, type, year, coverUrl). -/
def extDerivedb (d e : Item) : Bool :=
  decide (d.id = e.id ∧ d.title = e.title ∧ d.type = e.type ∧
    d.year = e.year ∧ d.coverUrl = e.coverUrl)

/-- Claim formalization (uniqueness): no two entries of the output share a
canonical id. -/
def claimNoDup (wantedType : String) (external : List ExtRaw) (raw : List UMS) : Prop :=
  ((reconcile wantedType external raw).map Item.id).Nodup

/-- Claim formalization (ordering): the output starts with one entry derived
from each external item, in feed order, and every entry after that prefix
has an id outside the external canonical ids. -/
def claimOrder (wantedType : String) (external : List ExtRaw) (raw : List UMS) : Prop :=
  List.Forall₂ (fun d e => extDerivedb d e = true)
    ((reconcile wantedType external raw).take (extItemsOf external).length)
    (extItemsOf external) ∧
  ∀ d ∈ (reconcile wantedType external raw).drop (extItemsOf external).length,
    d.id ∉ extIdsOf external

/-- Claim formalization (completeness): every external item is represented by
exactly one derived output entry, and the key every tracked record landed on
is the id of an output entry. -/
def claimComplete (wantedType : String) (external : List ExtRaw) (raw : List UMS) : Prop :=
  (∀ e ∈ extItemsOf external,
    (reconcile wantedType external raw).countP (fun d => extDerivedb d e) = 1) ∧
  (∀ k ∈ assignedKeys wantedType external raw,
    k ∈ (reconcile wantedType external raw).map Item.id)

/-- The no-collision precondition under which uniqueness, ordering and
completeness do hold: whenever a tracked record carries neither identifier,
the key synthesized from its row id collides neither with an external
canonical id nor with the synthesized key of any other tracked record. -/
def rowSafe (external : List ExtRaw) (tracked : List UMS) : Prop :=
  ∀ ums ∈ tracked, uInt ums = none → uExt ums = none →
    newKeyOf ums ∉ extIdsOf external ∧
    (tracked.map newKeyOf).count (newKeyOf ums) ≤ 1

/-- The resolution cascade as the specification words it: (1) the internal id
equals an existing canonical id, (2) the external id maps through the alias
map, (3) the external id equals an existing canonical id, (4) the internal
id maps through the alias map. -/
def resolveCanonicalSpec (st : St) (ums : UMS) : Option String :=
  match uInt ums with
  | some k =>
    if k ∈ st.itemsMap.keys then some k
    else
      match uExt ums with
      | some x =>
        match st.aliasMap.get? x with
        | some c => some c
        | none => if x ∈ st.itemsMap.keys then some x else st.aliasMap.get? k
      | none => st.aliasMap.get? k
  | none =>
    match uExt ums with
    | some x =>
      match st.aliasMap.get? x with
      | some c => some c
      | none => if x ∈ st.itemsMap.keys then some x else none
    | none => none

/-- The synthesized tracked-only key as the specification words it: the
internal id if present, else the external id, else the record's own row id. -/
def synthKeySpec (ums : UMS) : String :=
  match uInt ums with
  | some k => k
  | none =>
    match uExt ums with
    | some k => k
    | none => jsString ums.id

/-- The fallback target as the specification words it: the id of the first
item of the external list, in its original order, satisfying the
comparison. -/
def fallbackSpec (externalItems : List Item) (ums : UMS) : Option String :=
  (externalItems.find? (fun it => extMatches (titleKeyOf ums) (yearKeyOf ums) it)).map Item.id

-- ## Loop invariants

/-- The unconditional loop invariant: `itemsMap` has pairwise distinct keys,
every value's id is its key, the alias map only points at `itemsMap` keys,
and `itemsMap` covers every `externalMap` key. -/
structure Inv1 (exMap : JMap Item) (st : St) : Prop where
  nodupKeys : st.itemsMap.keys.Nodup
  idEqKey : ∀ p ∈ st.itemsMap.entries, p.2.id = p.1
  aliasRange : ∀ q ∈ st.aliasMap.entries, st.itemsMap.has q.2 = true
  exKeys : ∀ k, exMap.has k = true → st.itemsMap.has k = true

/-- The structural loop invariant available under `rowSafe` and distinct
external canonical ids: `itemsMap` splits into the seeded prefix `E`, still
pointwise derived from the external items, and a tail `T` of tracked-only
entries whose keys avoid the external ids, all come from already-processed
records, and appear as a sublist of the landed keys. -/
structure Inv5 (exMap : JMap Item) (extItems : List Item)
    (preKeys landed : List String) (st : St) (E T : List (String × Item)) : Prop where
  split : st.itemsMap.entries = E ++ T
  derived : List.Forall₂ (fun e p => p.1 = e.id ∧ extDerivedb p.2 e = true) extItems E
  tailFresh : ∀ p ∈ T, p.1 ∉ extItems.map Item.id
  tailFromPre : ∀ k ∈ T.map Prod.fst, k ∈ preKeys
  tailLanded : (T.map Prod.fst).Sublist landed
  nodupKeys : st.itemsMap.keys.Nodup
  idEqKey : ∀ p ∈ st.itemsMap.entries, p.2.id = p.1
  aliasRange : ∀ q ∈ st.aliasMap.entries, st.itemsMap.has q.2 = true

-- ## Concrete inputs for the counterexamples and witnesses

/-- Two external records sharing the canonical id "1". -/
def dupA : ExtRaw := { mediaId := some "1", title := some "Alpha" }

/-- Second external record with canonical id "1" but another title. -/
def dupB : ExtRaw := { mediaId := some "1", title := some "Beta" }

/-- External record with canonical id "1" and title "x". -/
def ordA : ExtRaw := { mediaId := some "1", title := some "x" }

/-- External record with canonical id "2" and title "y". -/
def ordB : ExtRaw := { mediaId := some "2", title := some "y" }

/-- External record that moves title "y" onto canonical id "1". -/
def ordC : ExtRaw := { mediaId := some "1", title := some "y" }

/-- Tracked record with no identifiers and title "y". -/
def ordR : UMS :=
  { media := some { title := some "y", type := some "BOOKS" },
    status := some "COMPLETED", id := some "row3" }

/-- External "Dune" with a well-formed 2021 release date. -/
def duneExt : ExtRaw :=
  { mediaId := some "7", title := some "Dune", releaseDate := some "2021-05-01" }

/-- Media sub-object of `duneBad`: title "Dune", malformed date "abcd". -/
def duneBadMedia : Media :=
  { title := some "Dune", releaseDate := some "abcd", type := some "BOOKS" }

/-- Tracked "Dune" whose release date is the malformed string "abcd". -/
def duneBad : UMS :=
  { media := some duneBadMedia, status := some "COMPLETED", id := some "row4" }

/-- External record with canonical id "10". -/
def colA : ExtRaw := { mediaId := some "10", title := some "Alpha" }

/-- External record with canonical id "20". -/
def colB : ExtRaw := { mediaId := some "20", title := some "Beta" }

/-- Tracked record with no identifiers whose own row id collides with the
external canonical id "10". -/
def colR : UMS :=
  { media := some { title := some "Gamma", type := some "BOOKS" },
    status := some "COMPLETED", id := some "10" }

/-- External record with canonical id "M". -/
def priExt : ExtRaw := { mediaId := some "M", title := some "Ext" }

/-- Media sub-object of `priR1`: external identifier "X" only. -/
def priR1Media : Media :=
  { externalMediaId := some "X", title := some "Solo", type := some "BOOKS" }

/-- Tracked record carrying only the external identifier "X", matching
nothing: it becomes a tracked-only entry keyed "X". -/
def priR1 : UMS :=
  { media := some priR1Media, status := some "PLANNED", id := some "rowXa" }

/-- Media sub-object of `priR2`: internal identifier "M" and external
identifier "X". -/
def priR2Media : Media :=
  { mediaId := some "M", externalMediaId := some "X", title := some "Solo2",
    type := some "BOOKS" }

/-- Later tracked record sharing the external identifier "X" but whose
internal identifier "M" hits the items map first. -/
def priR2 : UMS :=
  { media := some priR2Media, status := some "WATCHING", id := some "rowXb" }

/-- External record with every field absent except the id. -/
def bareExt : ExtRaw := { id := some "1" }

/-- External "Dune" used by the witnesses. -/
def wDuneExt : ExtRaw :=
  { id := some "7", title := some "Dune", releaseDate := some "2021-05-01" }

/-- Tracked record referencing "7" by internal id. -/
def wTrack : UMS :=
  { media := some { mediaId := some "7", type := some "MOVIE" },
    status := some "WATCHING", id := some "row7" }

/-- Tracked record with a whitespace-only title and no identifiers. -/
def blankR : UMS :=
  { media := some { title := some "   ", type := some "MOVIE" },
    status := some "COMPLETED", id := some "rowB" }

/-- Media sub-object of `priR3`: external identifier "X" only, no internal
identifier. -/
def priR3Media : Media :=
  { externalMediaId := some "X", title := some "Another", type := some "BOOKS" }

/-- Third tracked record sharing the external identifier "X", with no
internal identifier of its own. -/
def priR3 : UMS :=
  { media := some priR3Media, status := some "DROPPED", id := some "rowXc" }

/-- Media sub-object of `fbW`: lower-case title "dune", dated 2021. -/
def fbWMedia : Media :=
  { title := some "dune", releaseDate := some "2021-05-01", type := some "MOVIE" }

/-- Tracked record that reaches the title+year fallback. -/
def fbW : UMS :=
  { media := some fbWMedia, status := some "COMPLETED", id := some "row8" }

-- # Lemmas

-- ## Association-list (JS Map) lemmas

theorem lookupL_setL_self {β : Type} (l : List (String × β)) (k : String) (v : β) :
    lookupL (setL l k v) k = some v := by
  induction l with
  | nil => simp [setL, lookupL]
  | cons p rest ih =>
    by_cases h : p.1 = k
    · simp [setL, h, lookupL]
    · simp [setL, h, lookupL, ih]

theorem lookupL_setL_ne {β : Type} (l : List (String × β)) (k k' : String) (v : β)
    (h : k' ≠ k) : lookupL (setL l k v) k' = lookupL l k' := by
  induction l with
  | nil => simp [setL, lookupL, Ne.symm h]
  | cons p rest ih =>
    obtain ⟨a, b⟩ := p
    by_cases hp : a = k
    · subst hp
      simp [setL, lookupL, Ne.symm h]
    · by_cases ha : a = k'
      · subst ha
        simp [setL, lookupL, hp, h]
      · simp [setL, lookupL, hp, ha, ih]

theorem keys_setL_mem {β : Type} (l : List (String × β)) (k : String) (v : β)
    (h : k ∈ l.map Prod.fst) :
    (setL l k v).map Prod.fst = l.map Prod.fst := by
  induction l with
  | nil => simp at h
  | cons p rest ih =>
    obtain ⟨a, b⟩ := p
    by_cases hp : a = k
    · subst hp
      simp [setL]
    · have hk : k ∈ rest.map Prod.fst := by
        rcases List.mem_cons.mp h with h1 | h1
        · exact absurd h1.symm hp
        · exact h1
      simp [setL, hp, ih hk]

theorem setL_not_mem {β : Type} (l : List (String × β)) (k : String) (v : β)
    (h : k ∉ l.map Prod.fst) : setL l k v = l ++ [(k, v)] := by
  induction l with
  | nil => simp [setL]
  | cons p rest ih =>
    obtain ⟨a, b⟩ := p
    have hak : ¬a = k := by
      intro hak
      exact h (by simp [hak])
    have hk : k ∉ rest.map Prod.fst := by
      intro hk
      exact h (by simp [hk])
    simp [setL, hak, ih hk]

theorem lookupL_isSome_iff {β : Type} (l : List (String × β)) (k : String) :
    (lookupL l k).isSome = true ↔ k ∈ l.map Prod.fst := by
  induction l with
  | nil => simp [lookupL]
  | cons p rest ih =>
    obtain ⟨a, b⟩ := p
    by_cases hp : a = k
    · subst hp
      simp [lookupL]
    · simp [lookupL, hp, ih, Ne.symm hp]

theorem lookupL_mem {β : Type} (l : List (String × β)) (k : String) (v : β)
    (h : lookupL l k = some v) : (k, v) ∈ l := by
  induction l with
  | nil => simp [lookupL] at h
  | cons p rest ih =>
    obtain ⟨a, b⟩ := p
    by_cases hp : a = k
    · subst hp
      simp [lookupL] at h
      simp [h]
    · simp [lookupL, hp] at h
      exact List.mem_cons_of_mem _ (ih h)

theorem mem_setL {β : Type} (l : List (String × β)) (k : String) (v : β)
    (p : String × β) (h : p ∈ setL l k v) : p = (k, v) ∨ p ∈ l := by
  induction l with
  | nil => simp [setL] at h; simp [h]
  | cons q rest ih =>
    obtain ⟨a, b⟩ := q
    by_cases hp : a = k
    · subst hp
      simp [setL] at h
      rcases h with h | h
      · exact Or.inl h
      · exact Or.inr (List.mem_cons_of_mem _ h)
    · simp [setL, hp] at h
      rcases h with h | h
      · exact Or.inr (by simp [h])
      · rcases ih h with h1 | h1
        · exact Or.inl h1
        · exact Or.inr (List.mem_cons_of_mem _ h1)

theorem nodup_keys_setL {β : Type} (l : List (String × β)) (k : String) (v : β)
    (h : (l.map Prod.fst).Nodup) : ((setL l k v).map Prod.fst).Nodup := by
  by_cases hk : k ∈ l.map Prod.fst
  · rw [keys_setL_mem l k v hk]; exact h
  · rw [setL_not_mem l k v hk]
    simp [List.nodup_append, h, hk]

theorem setL_append {β : Type} (l1 l2 : List (String × β)) (k : String) (v : β) :
    setL (l1 ++ l2) k v =
      if k ∈ l1.map Prod.fst then setL l1 k v ++ l2 else l1 ++ setL l2 k v := by
  induction l1 with
  | nil => simp
  | cons p rest ih =>
    obtain ⟨a, b⟩ := p
    by_cases hp : a = k
    · subst hp
      simp [setL]
    · by_cases hk : k ∈ rest.map Prod.fst
      · simp [setL, hp, ih, hk, Ne.symm hp]
      · simp [setL, hp, ih, hk, Ne.symm hp]

theorem lookupL_append_left {β : Type} (l1 l2 : List (String × β)) (k : String)
    (h : k ∈ l1.map Prod.fst) : lookupL (l1 ++ l2) k = lookupL l1 k := by
  induction l1 with
  | nil => simp at h
  | cons p rest ih =>
    obtain ⟨a, b⟩ := p
    by_cases hp : a = k
    · simp [lookupL, hp]
    · have hk : k ∈ rest.map Prod.fst := by
        rcases List.mem_cons.mp h with h1 | h1
        · exact absurd h1.symm hp
        · exact h1
      simp [lookupL, hp, ih hk]

theorem lookupL_append_right {β : Type} (l1 l2 : List (String × β)) (k : String)
    (h : k ∉ l1.map Prod.fst) : lookupL (l1 ++ l2) k = lookupL l2 k := by
  induction l1 with
  | nil => simp
  | cons p rest ih =>
    obtain ⟨a, b⟩ := p
    have hak : ¬a = k := by
      intro hak
      exact h (by simp [hak])
    have hk : k ∉ rest.map Prod.fst := by
      intro hk
      exact h (by simp [hk])
    simp [lookupL, hak, ih hk]

theorem has_iff_mem_keys {β : Type} (m : JMap β) (k : String) :
    m.has k = true ↔ k ∈ m.keys := by
  simpa [JMap.has, JMap.get?, JMap.keys] using lookupL_isSome_iff m.entries k

theorem has_set {β : Type} (m : JMap β) (k k' : String) (v : β) :
    (m.set k v).has k' = true ↔ (k' = k ∨ m.has k' = true) := by
  by_cases h : k' = k
  · subst h
    simp [JMap.has, JMap.get?, JMap.set, lookupL_setL_self]
  · simp [JMap.has, JMap.get?, JMap.set, lookupL_setL_ne _ _ _ _ h, h]

theorem get?_set_self {β : Type} (m : JMap β) (k : String) (v : β) :
    (m.set k v).get? k = some v := by
  simp [JMap.get?, JMap.set, lookupL_setL_self]

theorem get?_set_ne {β : Type} (m : JMap β) (k k' : String) (v : β) (h : k' ≠ k) :
    (m.set k v).get? k' = m.get? k' := by
  simp [JMap.get?, JMap.set, lookupL_setL_ne _ _ _ _ h]

-- ## Characterization of the external build

theorem mkExternalItem_id (m : ExtRaw) : (mkExternalItem m).id = canonicalOf m := rfl

theorem foldl_buildStep_items (l : List ExtRaw)
    (acc : List Item × JMap Item × JMap String) :
    (l.foldl buildStep acc).1 = acc.1 ++ l.map mkExternalItem := by
  induction l generalizing acc with
  | nil => simp
  | cons m rest ih =>
    simp only [List.foldl_cons, List.map_cons]
    rw [ih]
    simp [buildStep]

theorem extItemsOf_eq (external : List ExtRaw) :
    extItemsOf external = external.map mkExternalItem := by
  simpa [extItemsOf, buildExternal] using foldl_buildStep_items external ([], ⟨[]⟩, ⟨[]⟩)

theorem extIdsOf_eq (external : List ExtRaw) :
    extIdsOf external = external.map canonicalOf := by
  simp [extIdsOf, extItemsOf_eq, List.map_map]
  intro a _
  rfl

theorem foldl_buildStep_exMap_has (l : List ExtRaw)
    (acc : List Item × JMap Item × JMap String) (k : String) :
    (l.foldl buildStep acc).2.1.has k = true ↔
      (acc.2.1.has k = true ∨ k ∈ l.map canonicalOf) := by
  induction l generalizing acc with
  | nil => simp
  | cons m rest ih =>
    simp only [List.foldl_cons, List.map_cons, List.mem_cons]
    rw [ih]
    have : (buildStep acc m).2.1 = acc.2.1.set (canonicalOf m) (mkExternalItem m) := rfl
    rw [this, has_set]
    tauto

theorem exMapOf_has (external : List ExtRaw) (k : String) :
    (exMapOf external).has k = true ↔ k ∈ extIdsOf external := by
  rw [extIdsOf_eq]
  have h0 : (JMap.has (β := Item) ⟨[]⟩ k) = false := rfl
  simpa [exMapOf, buildExternal, h0] using
    foldl_buildStep_exMap_has external ([], ⟨[]⟩, ⟨[]⟩) k

theorem mem_exMap_entries (external : List ExtRaw) (p : String × Item)
    (h : p ∈ (exMapOf external).entries) : p.1 ∈ extIdsOf external := by
  have : (exMapOf external).has p.1 = true := by
    rw [has_iff_mem_keys]
    exact List.mem_map_of_mem Prod.fst h
  exact (exMapOf_has external p.1).mp this

theorem foldl_buildStep_alias_range (P : String → Prop) (l : List ExtRaw)
    (acc : List Item × JMap Item × JMap String)
    (hacc : ∀ q ∈ acc.2.2.entries, P q.2) (hl : ∀ m ∈ l, P (canonicalOf m)) :
    ∀ q ∈ (l.foldl buildStep acc).2.2.entries, P q.2 := by
  induction l generalizing acc with
  | nil => exact hacc
  | cons m rest ih =>
    simp only [List.foldl_cons]
    refine ih (buildStep acc m) ?_ (fun m' hm' => hl m' (List.mem_cons_of_mem _ hm'))
    intro q hq
    have hPm : P (canonicalOf m) := hl m (List.mem_cons_self _ _)
    have step2 : (buildStep acc m).2.2 =
        (if truthyS m.mediaId then
          ((if truthyS m.externalMediaId then
              acc.2.2.set (jsString m.externalMediaId) (canonicalOf m)
            else acc.2.2).set (jsString m.mediaId) (canonicalOf m))
         else
          (if truthyS m.externalMediaId then
              acc.2.2.set (jsString m.externalMediaId) (canonicalOf m)
            else acc.2.2)) := by
      simp [buildStep]
    rw [step2] at hq
    by_cases h1 : truthyS m.mediaId <;> by_cases h2 : truthyS m.externalMediaId <;>
      simp only [h1, h2, if_true, if_false, JMap.set] at hq
    · rcases mem_setL _ _ _ _ hq with h | h
      · rw [h]; exact hPm
      · rcases mem_setL _ _ _ _ h with h' | h'
        · rw [h']; exact hPm
        · exact hacc q h'
    · rcases mem_setL _ _ _ _ hq with h | h
      · rw [h]; exact hPm
      · exact hacc q h
    · rcases mem_setL _ _ _ _ hq with h | h
      · rw [h]; exact hPm
      · exact hacc q h
    · exact hacc q hq

theorem aMap0Of_range (external : List ExtRaw) :
    ∀ q ∈ (aMap0Of external).entries, q.2 ∈ extIdsOf external := by
  rw [extIdsOf_eq]
  intro q hq
  refine foldl_buildStep_alias_range (fun c => c ∈ external.map canonicalOf) external
    ([], ⟨[]⟩, ⟨[]⟩) (by intro q hq; simp at hq) ?_ q hq
  intro m hm
  exact List.mem_map_of_mem canonicalOf hm

-- ## Characterization of the seeded items map

theorem foldl_seed_has (items : List Item) (acc : JMap Item) (k : String) :
    (items.foldl (fun im it => im.set it.id it) acc).has k = true ↔
      (acc.has k = true ∨ k ∈ items.map Item.id) := by
  induction items generalizing acc with
  | nil => simp
  | cons it rest ih =>
    simp only [List.foldl_cons, List.map_cons, List.mem_cons]
    rw [ih, has_set]
    tauto

theorem seedItems_has (items : List Item) (k : String) :
    (seedItems items).has k = true ↔ k ∈ items.map Item.id := by
  have h0 : (JMap.has (β := Item) ⟨[]⟩ k) = false := rfl
  simpa [seedItems, h0] using foldl_seed_has items ⟨[]⟩ k

theorem foldl_seed_idEqKey (items : List Item) (acc : JMap Item)
    (hacc : ∀ p ∈ acc.entries, p.2.id = p.1) :
    ∀ p ∈ (items.foldl (fun im it => im.set it.id it) acc).entries, p.2.id = p.1 := by
  induction items generalizing acc with
  | nil => exact hacc
  | cons it rest ih =>
    simp only [List.foldl_cons]
    refine ih _ ?_
    intro p hp
    rcases mem_setL _ _ _ _ hp with h | h
    · rw [h]
    · exact hacc p h

theorem foldl_seed_nodup (items : List Item) (acc : JMap Item)
    (hacc : acc.keys.Nodup) :
    (items.foldl (fun im it => im.set it.id it) acc).keys.Nodup := by
  induction items generalizing acc with
  | nil => exact hacc
  | cons it rest ih =>
    simp only [List.foldl_cons]
    exact ih _ (nodup_keys_setL _ _ _ hacc)

theorem st0_inv1 (external : List ExtRaw) :
    Inv1 (exMapOf external) (st0Of external) := by
  constructor
  · exact foldl_seed_nodup _ _ (by simp [JMap.keys])
  · exact foldl_seed_idEqKey _ _ (by intro p hp; simp at hp)
  · intro q hq
    have h2 : q.2 ∈ extIdsOf external := aMap0Of_range external q hq
    have : q.2 ∈ (extItemsOf external).map Item.id := h2
    exact (seedItems_has _ _).mpr this
  · intro k hk
    have h2 : k ∈ extIdsOf external := (exMapOf_has external k).mp hk
    exact (seedItems_has _ _).mpr h2

-- ## Step-level facts

theorem chkDirect_some (im : JMap Item) (u : Option String) (c : String)
    (h : chkDirect im u = some c) : im.has c = true ∧ u = some c := by
  cases u with
  | none => simp [chkDirect] at h
  | some k =>
    by_cases hk : im.has k = true
    · simp [chkDirect, hk] at h
      subst h
      exact ⟨hk, rfl⟩
    · simp [chkDirect, Bool.of_not_eq_true hk] at h

theorem chkAlias_some (am : JMap String) (u : Option String) (c : String)
    (h : chkAlias am u = some c) : ∃ k, u = some k ∧ am.get? k = some c := by
  cases u with
  | none => simp [chkAlias] at h
  | some k => exact ⟨k, rfl, h⟩

theorem resolveCanonical_has (st : St) (ums : UMS) (c : String)
    (hAlias : ∀ q ∈ st.aliasMap.entries, st.itemsMap.has q.2 = true)
    (h : resolveCanonical st ums = some c) : st.itemsMap.has c = true := by
  have ofAlias : ∀ u, chkAlias st.aliasMap u = some c → st.itemsMap.has c = true := by
    intro u hu
    obtain ⟨k, _, hget⟩ := chkAlias_some _ _ _ hu
    exact hAlias (k, c) (lookupL_mem _ _ _ hget)
  unfold resolveCanonical at h
  cases h1 : chkDirect st.itemsMap (uInt ums) with
  | some c1 =>
    rw [h1] at h
    cases h
    exact (chkDirect_some _ _ _ h1).1
  | none =>
    rw [h1] at h
    cases h2 : chkAlias st.aliasMap (uExt ums) with
    | some c2 =>
      rw [h2] at h
      cases h
      exact ofAlias _ h2
    | none =>
      rw [h2] at h
      cases h3 : chkDirect st.itemsMap (uExt ums) with
      | some c3 =>
        rw [h3] at h
        cases h
        exact (chkDirect_some _ _ _ h3).1
      | none =>
        rw [h3] at h
        exact ofAlias _ h

theorem find?_prop {α : Type} (p : α → Bool) (l : List α) (a : α)
    (h : l.find? p = some a) : p a = true :=
  List.find?_some h

theorem fallbackCanonical_mem (exMap : JMap Item) (ums : UMS) (c : String)
    (h : fallbackCanonical exMap ums = some c) :
    ∃ it, (c, it) ∈ exMap.entries ∧
      extMatches (titleKeyOf ums) (yearKeyOf ums) it = true := by
  unfold fallbackCanonical at h
  by_cases ht : (titleKeyOf ums).data.isEmpty
  · simp [ht] at h
  · simp only [ht, if_false, Bool.false_eq_true] at h
    cases hf : exMap.entries.find?
        (fun p => extMatches (titleKeyOf ums) (yearKeyOf ums) p.2) with
    | none => rw [hf] at h; cases h
    | some p =>
      rw [hf] at h
      cases h
      refine ⟨p.2, ?_, ?_⟩
      · have := List.mem_of_find?_eq_some hf
        simpa using this
      · have hpred := find?_prop _ _ _ hf
        simpa using hpred


theorem fallbackCanonical_has (external : List ExtRaw) (ums : UMS) (c : String)
    (h : fallbackCanonical (exMapOf external) ums = some c) : c ∈ extIdsOf external := by
  obtain ⟨it, hmem, _⟩ := fallbackCanonical_mem _ _ _ h
  exact mem_exMap_entries external (c, it) hmem

theorem baseFor_of_get (exMap : JMap Item) (st : St) (c : String) (b : Item)
    (h : st.itemsMap.get? c = some b) : baseFor exMap st c = b := by
  simp [baseFor, h]

theorem mergeOnto_id (base : Item) (ums : UMS) : (mergeOnto base ums).id = base.id := rfl

theorem mkNewItem_id (ums : UMS) : (mkNewItem ums).id = newKeyOf ums := rfl

theorem mem_registerAliases (am : JMap String) (ums : UMS) (c : String)
    (q : String × String) (h : q ∈ (registerAliases am ums c).entries) :
    q.2 = c ∨ q ∈ am.entries := by
  unfold registerAliases at h
  cases hi : uInt ums with
  | some y =>
    rw [hi] at h
    rcases mem_setL _ _ _ _ h with h1 | h1
    · rw [h1]
      exact Or.inl rfl
    · cases he : uExt ums with
      | some x =>
        rw [he] at h1
        rcases mem_setL _ _ _ _ h1 with h2 | h2
        · rw [h2]
          exact Or.inl rfl
        · exact Or.inr h2
      | none =>
        rw [he] at h1
        exact Or.inr h1
  | none =>
    rw [hi] at h
    cases he : uExt ums with
    | some x =>
      rw [he] at h
      rcases mem_setL _ _ _ _ h with h2 | h2
      · rw [h2]
        exact Or.inl rfl
      · exact Or.inr h2
    | none =>
      rw [he] at h
      exact Or.inr h

theorem inv1_update (exMap : JMap Item) (st : St) (ums : UMS) (key : String)
    (val : Item) (hval : val.id = key) (h : Inv1 exMap st) :
    Inv1 exMap ⟨st.itemsMap.set key val, registerAliases st.aliasMap ums key⟩ := by
  constructor
  · exact nodup_keys_setL _ _ _ h.nodupKeys
  · intro p hp
    rcases mem_setL _ _ _ _ hp with h1 | h1
    · rw [h1]
      exact hval
    · exact h.idEqKey p h1
  · intro q hq
    rcases mem_registerAliases _ _ _ _ hq with h1 | h1
    · rw [h1, has_set]
      exact Or.inl rfl
    · rw [has_set]
      exact Or.inr (h.aliasRange q h1)
  · intro k hk
    rw [has_set]
    exact Or.inr (h.exKeys k hk)

theorem stepR_inv1 (exMap : JMap Item) (st : St) (ums : UMS) (h : Inv1 exMap st) :
    Inv1 exMap (stepR exMap st ums).1 := by
  unfold stepR
  cases hr : resolveCanonical st ums with
  | some c =>
    have hhas : st.itemsMap.has c = true := resolveCanonical_has st ums c h.aliasRange hr
    obtain ⟨b, hb⟩ := Option.isSome_iff_exists.mp hhas
    have hbid : b.id = c := h.idEqKey (c, b) (lookupL_mem _ _ _ hb)
    have hbase : baseFor exMap st c = b := baseFor_of_get exMap st c b hb
    exact inv1_update exMap st ums c _ (by rw [hbase, mergeOnto_id, hbid]) h
  | none =>
    cases hf : fallbackCanonical exMap ums with
    | some c =>
      obtain ⟨it, hmem, _⟩ := fallbackCanonical_mem _ _ _ hf
      have hhas : st.itemsMap.has c = true := by
        apply h.exKeys
        rw [has_iff_mem_keys]
        exact List.mem_map_of_mem Prod.fst hmem
      obtain ⟨b, hb⟩ := Option.isSome_iff_exists.mp hhas
      have hbid : b.id = c := h.idEqKey (c, b) (lookupL_mem _ _ _ hb)
      have hbase : baseFor exMap st c = b := baseFor_of_get exMap st c b hb
      exact inv1_update exMap st ums c _ (by rw [hbase, mergeOnto_id, hbid]) h
    | none =>
      exact inv1_update exMap st ums (newKeyOf ums) _ (mkNewItem_id ums) h

theorem runTracked_cons (exMap : JMap Item) (st : St) (ums : UMS) (rest : List UMS) :
    runTracked exMap st (ums :: rest) = runTracked exMap (stepR exMap st ums).1 rest := rfl

theorem runTracked_inv1 (exMap : JMap Item) (tracked : List UMS) (st : St)
    (h : Inv1 exMap st) : Inv1 exMap (runTracked exMap st tracked) := by
  induction tracked generalizing st with
  | nil => exact h
  | cons ums rest ih =>
    rw [runTracked_cons]
    exact ih _ (stepR_inv1 exMap st ums h)

-- ## The flattened output

theorem filterMap_get_ids (items : List Item) (im : JMap Item)
    (hhas : ∀ e ∈ items, im.has e.id = true)
    (hid : ∀ p ∈ im.entries, p.2.id = p.1) :
    (items.filterMap (fun it => im.get? it.id)).map Item.id = items.map Item.id := by
  induction items with
  | nil => simp
  | cons e rest ih =>
    have he : im.has e.id = true := hhas e (List.mem_cons_self _ _)
    obtain ⟨v, hv⟩ := Option.isSome_iff_exists.mp he
    have hvid : v.id = e.id := hid (e.id, v) (lookupL_mem _ _ _ hv)
    simp [List.filterMap_cons, hv, hvid,
      ih (fun x hx => hhas x (List.mem_cons_of_mem _ hx))]

theorem tail_ids (im : JMap Item) (exMap : JMap Item)
    (hid : ∀ p ∈ im.entries, p.2.id = p.1) :
    ((im.entries.filter (fun p => !exMap.has p.1)).map Prod.snd).map Item.id =
      (im.entries.filter (fun p => !exMap.has p.1)).map Prod.fst := by
  rw [List.map_map]
  apply List.map_congr_left
  intro p hp
  exact hid p (List.mem_of_mem_filter hp)

theorem reconcile_ids (wantedType : String) (external : List ExtRaw) (raw : List UMS) :
    (reconcile wantedType external raw).map Item.id =
      extIdsOf external ++
      ((runTracked (exMapOf external) (st0Of external)
          (filterWanted wantedType raw)).itemsMap.entries.filter
        (fun p => !(exMapOf external).has p.1)).map Prod.fst := by
  have hInv : Inv1 (exMapOf external)
      (runTracked (exMapOf external) (st0Of external) (filterWanted wantedType raw)) :=
    runTracked_inv1 _ _ _ (st0_inv1 external)
  have hhas : ∀ e ∈ extItemsOf external,
      (runTracked (exMapOf external) (st0Of external)
        (filterWanted wantedType raw)).itemsMap.has e.id = true := by
    intro e he
    apply hInv.exKeys
    rw [exMapOf_has]
    exact List.mem_map_of_mem Item.id he
  unfold reconcile finalize
  rw [List.map_append, filterMap_get_ids _ _ hhas hInv.idEqKey,
    tail_ids _ _ hInv.idEqKey]
  rfl

/-- Claim C1, as stated, is false: with two external records sharing the
canonical id "1" and no tracked records, the reconciler pushes the single
merged map entry once per occurrence, so the output holds two entries with
the same id. -/
theorem c1_counterexample : ¬ claimNoDup "BOOKS" [dupA, dupB] [] := by
  unfold claimNoDup
  decide

/-- Claim C1, amended: whenever the canonical ids of the external input list
are pairwise distinct, the canonical id of every produced display item is
unique — no two entries of the output share an id, for every tracked input.
(The claim's "including when the external input list itself contains two
items with the same canonical id" is exactly the situation that breaks it.) -/
theorem c1_theorem (wantedType : String) (external : List ExtRaw) (raw : List UMS)
    (h : (extIdsOf external).Nodup) : claimNoDup wantedType external raw := by
  unfold claimNoDup
  rw [reconcile_ids]
  have hInv : Inv1 (exMapOf external)
      (runTracked (exMapOf external) (st0Of external) (filterWanted wantedType raw)) :=
    runTracked_inv1 _ _ _ (st0_inv1 external)
  rw [List.nodup_append]
  refine ⟨h, ?_, ?_⟩
  · exact hInv.nodupKeys.sublist ((List.filter_sublist _).map Prod.fst)
  · intro a ha hb
    obtain ⟨p, hp, hpa⟩ := List.mem_map.mp hb
    have hfil := List.mem_filter.mp hp
    have : (exMapOf external).has p.1 = false := by
      simpa using hfil.2
    rw [hpa] at this
    rw [← exMapOf_has external a] at ha
    rw [ha] at this
    cases this

/-- Witness for the amended C1 at a concrete input with a distinct-id feed. -/
theorem c1_witness :
    (extIdsOf [wDuneExt]).Nodup ∧ claimNoDup "MOVIE" [wDuneExt] [wTrack] :=
  ⟨by decide, c1_theorem "MOVIE" [wDuneExt] [wTrack] (by decide)⟩

-- ## The resolution cascade against the specification's wording

theorem resolveCanonical_eq_spec (st : St) (ums : UMS) :
    resolveCanonical st ums = resolveCanonicalSpec st ums := by
  have hmem : ∀ y : String, (y ∈ st.itemsMap.keys) ↔ st.itemsMap.has y = true :=
    fun y => (has_iff_mem_keys st.itemsMap y).symm
  unfold resolveCanonical resolveCanonicalSpec chkDirect chkAlias
  cases hI : uInt ums with
  | none =>
    cases hE : uExt ums with
    | none => rfl
    | some x =>
      cases hax : st.aliasMap.get? x with
      | some c => simp [hax]
      | none =>
        by_cases hx : st.itemsMap.has x = true <;> simp [hax, hx, hmem]
  | some k =>
    by_cases hk : st.itemsMap.has k = true
    · simp [hk, hmem]
    · cases hE : uExt ums with
      | none => simp [hk, hmem]
      | some x =>
        cases hax : st.aliasMap.get? x with
        | some c => simp [hk, hmem, hax]
        | none =>
          by_cases hx : st.itemsMap.has x = true <;> simp [hk, hmem, hax, hx]

theorem newKeyOf_eq_synth (ums : UMS) : newKeyOf ums = synthKeySpec ums := by
  unfold newKeyOf synthKeySpec uInt uExt orS
  by_cases h1 : truthyS (mediaOf ums).mediaId <;>
    by_cases h2 : truthyS (mediaOf ums).externalMediaId <;>
      simp [h1, h2, jsString]

theorem stepR_landed (exMap : JMap Item) (st : St) (ums : UMS) :
    (stepR exMap st ums).2 =
      (match resolveCanonical st ums with
       | some c => c
       | none =>
         match fallbackCanonical exMap ums with
         | some c => c
         | none => synthKeySpec ums) := by
  unfold stepR
  cases hr : resolveCanonical st ums with
  | some c => rfl
  | none =>
    cases hf : fallbackCanonical exMap ums with
    | some c => rfl
    | none =>
      simp [newKeyOf_eq_synth]

theorem stepR_trackedOnly (exMap : JMap Item) (st : St) (ums : UMS)
    (hr : resolveCanonical st ums = none) (hf : fallbackCanonical exMap ums = none) :
    (stepR exMap st ums).1.itemsMap.get? (synthKeySpec ums) = some (mkNewItem ums) := by
  unfold stepR
  rw [hr, hf]
  simp only [← newKeyOf_eq_synth]
  exact get?_set_self _ _ _

/-- Claim C2: the reconciler resolves a tracked record's canonical id by
trying, in this exact order, (1) internal id against the existing canonical
ids, (2) external id through the alias map, (3) external id against the
existing canonical ids, (4) internal id through the alias map; only when all
four fail is the title/year fallback attempted, and only when the fallback
also fails is a new canonical id synthesized (internal id, else external id,
else the record's own row id) and registered as a tracked-only entry. -/
theorem c2_theorem (exMap : JMap Item) (st : St) (ums : UMS) :
    resolveCanonical st ums = resolveCanonicalSpec st ums ∧
    (stepR exMap st ums).2 =
      (match resolveCanonical st ums with
       | some c => c
       | none =>
         match fallbackCanonical exMap ums with
         | some c => c
         | none => synthKeySpec ums) ∧
    (resolveCanonical st ums = none → fallbackCanonical exMap ums = none →
      (stepR exMap st ums).1.itemsMap.get? (synthKeySpec ums) = some (mkNewItem ums)) :=
  ⟨resolveCanonical_eq_spec st ums, stepR_landed exMap st ums,
    stepR_trackedOnly exMap st ums⟩

/-- Witness for C2: a tracked record that matches nothing lands on its
synthesized key and is registered as a tracked-only entry. -/
theorem c2_witness :
    resolveCanonical (st0Of []) wTrack = none ∧
    fallbackCanonical (exMapOf []) wTrack = none ∧
    (stepR (exMapOf []) (st0Of []) wTrack).1.itemsMap.get? (synthKeySpec wTrack) =
      some (mkNewItem wTrack) :=
  ⟨by decide, by decide,
    (c2_theorem (exMapOf []) (st0Of []) wTrack).2.2 (by decide) (by decide)⟩

-- ## The fallback scan against the external list order

theorem foldl_buildStep_exMap_entries (l : List ExtRaw)
    (acc : List Item × JMap Item × JMap String)
    (hacc : ∀ m ∈ l, acc.2.1.has (canonicalOf m) = false)
    (hn : (l.map canonicalOf).Nodup) :
    (l.foldl buildStep acc).2.1.entries =
      acc.2.1.entries ++ l.map (fun m => (canonicalOf m, mkExternalItem m)) := by
  induction l generalizing acc with
  | nil => simp
  | cons m rest ih =>
    simp only [List.foldl_cons, List.map_cons]
    have hstep : (buildStep acc m).2.1 =
        acc.2.1.set (canonicalOf m) (mkExternalItem m) := rfl
    have hsetEntries : (acc.2.1.set (canonicalOf m) (mkExternalItem m)).entries =
        acc.2.1.entries ++ [(canonicalOf m, mkExternalItem m)] := by
      unfold JMap.set
      apply setL_not_mem
      intro hmem
      have hh : acc.2.1.has (canonicalOf m) = true := (has_iff_mem_keys _ _).mpr hmem
      rw [hacc m (List.mem_cons_self _ _)] at hh
      cases hh
    rw [ih (buildStep acc m) ?hAcc (List.nodup_cons.mp hn).2]
    · rw [hstep, hsetEntries]
      simp
    case hAcc =>
      intro m' hm'
      rw [hstep]
      cases hb : (acc.2.1.set (canonicalOf m) (mkExternalItem m)).has (canonicalOf m') with
      | false => rfl
      | true =>
        exfalso
        rcases (has_set _ _ _ _).mp hb with he | he
        · exact (List.nodup_cons.mp hn).1 (he ▸ List.mem_map_of_mem canonicalOf hm')
        · rw [hacc m' (List.mem_cons_of_mem _ hm')] at he
          cases he

theorem exMapOf_entries (external : List ExtRaw) (h : (extIdsOf external).Nodup) :
    (exMapOf external).entries =
      external.map (fun m => (canonicalOf m, mkExternalItem m)) := by
  rw [extIdsOf_eq] at h
  have hres := foldl_buildStep_exMap_entries external ([], ⟨[]⟩, ⟨[]⟩)
    (by intro m _; rfl) h
  simpa [exMapOf, buildExternal] using hres

theorem extMatches_empty_title (tk : String) (yk : JVal) (it : Item)
    (h : tk.data = []) : extMatches tk yk it = false := by
  unfold extMatches
  cases hd : (jsLower (jsTrim it.title)).data with
  | nil => simp [hd]
  | cons c cs => simp [hd, h]

theorem fallbackCanonical_eq_spec (external : List ExtRaw) (ums : UMS)
    (h : (extIdsOf external).Nodup) :
    fallbackCanonical (exMapOf external) ums = fallbackSpec (extItemsOf external) ums := by
  unfold fallbackCanonical fallbackSpec
  by_cases ht : (titleKeyOf ums).data.isEmpty = true
  · have hempty : (titleKeyOf ums).data = [] := List.isEmpty_iff.mp ht
    have hnone : (extItemsOf external).find?
        (fun it => extMatches (titleKeyOf ums) (yearKeyOf ums) it) = none := by
      rw [List.find?_eq_none]
      intro it _
      rw [extMatches_empty_title _ _ _ hempty]
      simp
    simp [ht, hnone]
  · rw [Bool.not_eq_true] at ht
    rw [exMapOf_entries external h, extItemsOf_eq]
    simp only [ht, Bool.false_eq_true, if_false, List.find?_map, Function.comp_def]
    cases hfind : external.find?
        (fun m => extMatches (titleKeyOf ums) (yearKeyOf ums) (mkExternalItem m)) with
    | none => simp [hfind]
    | some m => simp [hfind, mkExternalItem_id]

/-- Claim C3, as stated, is false on duplicate canonical ids: the fallback
scans the deduplicating `externalMap` (one entry per canonical id, in
first-occurrence order, carrying the last occurrence's fields), not the
external list itself.  Here the code's fallback picks canonical id "1" while
the first matching external item in original list order has id "2". -/
theorem c3_counterexample :
    fallbackCanonical (exMapOf [ordA, ordB, ordC]) ordR ≠
      fallbackSpec (extItemsOf [ordA, ordB, ordC]) ordR ∧
    fallbackCanonical (exMapOf [ordA, ordB, ordC]) ordR = some "1" ∧
    fallbackSpec (extItemsOf [ordA, ordB, ordC]) ordR = some "2" ∧
    resolveCanonical (st0Of [ordA, ordB, ordC]) ordR = none :=
  ⟨by decide, by decide, by decide, by decide⟩

/-- Claim C3, amended: when the external canonical ids are pairwise
distinct, the fallback comparison is exactly the stated one — trimmed
case-insensitive title equality with the year clause — applied to the
external items in the external list's original order, first match winning
with no scoring; and an identifier match always takes precedence over any
fallback match.  (With duplicate canonical ids the scan instead walks the
deduplicated map in first-occurrence order with last-occurrence fields.) -/
theorem c3_theorem (external : List ExtRaw) (ums : UMS) (st : St)
    (h : (extIdsOf external).Nodup) :
    fallbackCanonical (exMapOf external) ums = fallbackSpec (extItemsOf external) ums ∧
    (∀ c, resolveCanonical st ums = some c → (stepR (exMapOf external) st ums).2 = c) := by
  constructor
  · exact fallbackCanonical_eq_spec external ums h
  · intro c hc
    rw [stepR_landed, hc]

/-- Witness for the amended C3: a concrete fallback match agreeing with the
original-order scan. -/
theorem c3_witness :
    (extIdsOf [wDuneExt]).Nodup ∧
    fallbackCanonical (exMapOf [wDuneExt]) fbW = fallbackSpec (extItemsOf [wDuneExt]) fbW ∧
    fallbackCanonical (exMapOf [wDuneExt]) fbW = some "7" :=
  ⟨by decide, (c3_theorem [wDuneExt] fbW (st0Of [wDuneExt]) (by decide)).1, by decide⟩

-- ## The year coercion of the fallback

theorem yearKeyOf_char (ums : UMS) :
    yearKeyOf ums =
      (match (mediaOf ums).releaseDate with
       | none => JVal.undefined
       | some s =>
         if s.data = [] then JVal.undefined
         else
           match jsToNumber (jsSlice s 4) with
           | some n => if n = 0 then JVal.str (jsSlice s 4) else JVal.num n
           | none => JVal.str (jsSlice s 4)) := by
  unfold yearKeyOf toYear
  cases hrd : (mediaOf ums).releaseDate with
  | none => simp [truthyS]
  | some s =>
    by_cases hs : s.data = []
    · have : truthyS (some s) = false := by simp [truthyS, hs]
      simp [this, hs]
    · have htr : truthyS (some s) = true := by simp [truthyS, hs]
      cases hn : jsToNumber (jsSlice (jsString (some s)) 4) with
      | none =>
        simp only [jsString] at hn
        simp [htr, hn, jsString, JVal.truthy, hs]
      | some n =>
        simp only [jsString] at hn
        by_cases hz : n = 0
        · simp [htr, hn, hz, jsString, JVal.truthy, hs]
        · simp [htr, hn, hz, jsString, JVal.truthy, hs]

theorem yearOk_undef_left (e : JVal) : yearOk JVal.undefined e = true := by
  simp [yearOk, JVal.isNullish]

theorem yearOk_undef_right (y : JVal) : yearOk y JVal.undefined = true := by
  simp [yearOk, JVal.isNullish, JVal.truthy]

theorem yearOk_strict (yk ey : JVal) (h1 : yk.isNullish = false)
    (h2 : ey.truthy = true) : yearOk yk ey = (ey.toStr.data == yk.toStr.data) := by
  have h3 : ey.isNullish = false := by
    cases ey with
    | undefined => simp [JVal.truthy] at h2
    | nan => rfl
    | num n => rfl
    | str s => rfl
  simp [yearOk, h1, h2, h3]

/-- Claim C4, as stated, is false: a malformed tracked `releaseDate` does
not yield an undefined year — the year key falls back to the raw 4-character
prefix string, the external side's year is the 4-character prefix string
(never numeric), and the mismatch blocks a fallback match whose titles
agree.  "Dune"/"abcd" against "Dune"/"2021-05-01" fails to merge and yields
two output entries. -/
theorem c4_counterexample :
    jsToNumber (jsSlice (jsString (mediaOf duneBad).releaseDate) 4) = none ∧
    yearKeyOf duneBad ≠ JVal.undefined ∧
    yearKeyOf duneBad = JVal.str "abcd" ∧
    titleKeyOf duneBad = jsLower (jsTrim (mkExternalItem duneExt).title) ∧
    extMatches (titleKeyOf duneBad) (yearKeyOf duneBad) (mkExternalItem duneExt) = false ∧
    (reconcile "BOOKS" [duneExt] [duneBad]).length = 2 :=
  ⟨by decide, by decide, by decide, by decide, by decide, by decide⟩

/-- Claim C4, amended: the tracked side's year key is `undefined` only for
an absent or empty date string; otherwise it is the numeric value of the
4-character prefix when that parses to a nonzero number, and the raw
4-character prefix string when parsing fails (NaN) or yields 0.  The
external side's year is always the 4-character prefix string, or undefined
when the date is absent or empty.  An undefined year on either side is a
non-blocking wildcard, but when both sides have a year the comparison is
strict string equality of the coerced values — so a malformed tracked date
CAN block a title match. -/
theorem c4_theorem :
    (∀ ums : UMS, yearKeyOf ums =
      (match (mediaOf ums).releaseDate with
       | none => JVal.undefined
       | some s =>
         if s.data = [] then JVal.undefined
         else
           match jsToNumber (jsSlice s 4) with
           | some n => if n = 0 then JVal.str (jsSlice s 4) else JVal.num n
           | none => JVal.str (jsSlice s 4))) ∧
    (∀ m : ExtRaw, (mkExternalItem m).year =
      (if (jsSlice (m.releaseDate.getD "") 4).data.isEmpty then JVal.undefined
       else JVal.str (jsSlice (m.releaseDate.getD "") 4))) ∧
    (∀ e : JVal, yearOk JVal.undefined e = true) ∧
    (∀ y : JVal, yearOk y JVal.undefined = true) ∧
    (∀ yk ey : JVal, yk.isNullish = false → ey.truthy = true →
      yearOk yk ey = (ey.toStr.data == yk.toStr.data)) :=
  ⟨yearKeyOf_char, fun _ => rfl, yearOk_undef_left, yearOk_undef_right, yearOk_strict⟩

/-- Witness for the amended C4: a concrete strict comparison (1999 against
2021) evaluates to the string comparison, which is false. -/
theorem c4_witness :
    JVal.isNullish (JVal.str "1999") = false ∧ JVal.truthy (JVal.str "2021") = true ∧
    yearOk (JVal.str "1999") (JVal.str "2021") =
      ((JVal.str "2021").toStr.data == (JVal.str "1999").toStr.data) ∧
    yearOk (JVal.str "1999") (JVal.str "2021") = false :=
  ⟨by decide, by decide,
    c4_theorem.2.2.2.2 (JVal.str "1999") (JVal.str "2021") (by decide) (by decide),
    by decide⟩

-- ## The merge frame

/-- Claim C7: when a tracked record resolves to a canonical id (by the
identifier cascade or by the fallback), the entry for that id receives the
record's status, a rating equal to the record's rating or — when the record
has none — the pre-existing entry's rating, and an href recomputed from the
tracked record's own type and id; every other field of the entry (id, title,
type, year, coverUrl, and the raw payload) is left unchanged, and the record
lands exactly on that id. -/
theorem c7_theorem (exMap : JMap Item) (st : St) (ums : UMS) (c : String) (base : Item)
    (hres : resolveCanonical st ums = some c ∨
      (resolveCanonical st ums = none ∧ fallbackCanonical exMap ums = some c))
    (hbase : st.itemsMap.get? c = some base) :
    (stepR exMap st ums).1.itemsMap.get? c =
      some { base with
        status := ums.status
        rating := match ums.rating with | some r => some r | none => base.rating
        href := hrefOf ums } ∧
    (stepR exMap st ums).2 = c := by
  have hbf : baseFor exMap st c = base := baseFor_of_get exMap st c base hbase
  have hstep : stepR exMap st ums =
      (⟨st.itemsMap.set c (mergeOnto (baseFor exMap st c) ums),
        registerAliases st.aliasMap ums c⟩, c) := by
    rcases hres with h | ⟨h1, h2⟩
    · unfold stepR
      rw [h]
    · unfold stepR
      rw [h1, h2]
  rw [hstep, hbf]
  exact ⟨get?_set_self st.itemsMap c (mergeOnto base ums), rfl⟩

/-- Witness for C7: merging "WATCHING" onto the external "Dune" keeps every
static field and rewrites status, rating and href. -/
theorem c7_witness :
    resolveCanonical (st0Of [wDuneExt]) wTrack = some "7" ∧
    (st0Of [wDuneExt]).itemsMap.get? "7" = some (mkExternalItem wDuneExt) ∧
    (stepR (exMapOf [wDuneExt]) (st0Of [wDuneExt]) wTrack).1.itemsMap.get? "7" =
      some { mkExternalItem wDuneExt with
        status := wTrack.status
        rating := match wTrack.rating with
          | some r => some r
          | none => (mkExternalItem wDuneExt).rating
        href := hrefOf wTrack } ∧
    (stepR (exMapOf [wDuneExt]) (st0Of [wDuneExt]) wTrack).2 = "7" := by
  have h := c7_theorem (exMapOf [wDuneExt]) (st0Of [wDuneExt]) wTrack "7"
    (mkExternalItem wDuneExt) (Or.inl (by decide)) (by decide)
  exact ⟨by decide, by decide, h.1, h.2⟩

-- ## Empty titles never fallback-match

theorem extMatches_empty_ext (tk : String) (yk : JVal) (e : Item)
    (h : (jsLower (jsTrim e.title)).data = []) : extMatches tk yk e = false := by
  simp [extMatches, h]

/-- Claim C9: a tracked record whose title trims to the empty string never
fallback-matches anything — the fallback returns nothing, no external item
satisfies the comparison, an external item whose own title trims to empty
matches nothing either — and when the identifier cascade also fails, the
record becomes its own tracked-only entry. -/
theorem c9_theorem (exMap : JMap Item) (st : St) (ums : UMS)
    (ht : (titleKeyOf ums).data = []) :
    fallbackCanonical exMap ums = none ∧
    (∀ it : Item, extMatches (titleKeyOf ums) (yearKeyOf ums) it = false) ∧
    (∀ (tk : String) (yk : JVal) (e : Item), (jsLower (jsTrim e.title)).data = [] →
      extMatches tk yk e = false) ∧
    (resolveCanonical st ums = none →
      (stepR exMap st ums).2 = newKeyOf ums ∧
      (stepR exMap st ums).1.itemsMap.get? (newKeyOf ums) = some (mkNewItem ums)) := by
  have hfb : fallbackCanonical exMap ums = none := by
    unfold fallbackCanonical
    have : (titleKeyOf ums).data.isEmpty = true := by
      rw [List.isEmpty_iff]
      exact ht
    simp [this]
  refine ⟨hfb, fun it => extMatches_empty_title _ _ _ ht, extMatches_empty_ext, ?_⟩
  intro hr
  unfold stepR
  rw [hr, hfb]
  exact ⟨rfl, get?_set_self _ _ _⟩

/-- Witness for C9: the whitespace-titled record with no identifiers becomes
its own tracked-only entry even though an external item exists. -/
theorem c9_witness :
    (titleKeyOf blankR).data = [] ∧
    fallbackCanonical (exMapOf [wDuneExt]) blankR = none ∧
    (stepR (exMapOf [wDuneExt]) (st0Of [wDuneExt]) blankR).2 = newKeyOf blankR := by
  have h := c9_theorem (exMapOf [wDuneExt]) (st0Of [wDuneExt]) blankR (by decide)
  exact ⟨by decide, h.1, (h.2.2.2 (by decide)).1⟩

-- ## Alias registration by tracked-only entries

theorem registerAliases_get_uExt (am : JMap String) (ums : UMS) (c x : String)
    (h : uExt ums = some x) : (registerAliases am ums c).get? x = some c := by
  unfold registerAliases
  rw [h]
  cases hi : uInt ums with
  | none => exact get?_set_self _ _ _
  | some y =>
    by_cases hxy : x = y
    · subst hxy
      exact get?_set_self _ _ _
    · rw [get?_set_ne _ _ _ _ hxy]
      exact get?_set_self _ _ _

theorem registerAliases_get_uInt (am : JMap String) (ums : UMS) (c y : String)
    (h : uInt ums = some y) : (registerAliases am ums c).get? y = some c := by
  unfold registerAliases
  rw [h]
  exact get?_set_self _ _ _

theorem newKeyOf_uInt (ums : UMS) (y : String) (h : uInt ums = some y) :
    newKeyOf ums = y := by
  unfold uInt at h
  by_cases ht : truthyS (mediaOf ums).mediaId
  · simp [ht] at h
    unfold newKeyOf orS
    simp [ht, h]
  · simp [ht] at h

/-- Claim C10, as stated, is false: a tracked-only record does register its
identifiers in the alias map, but a later record that shares one of them
need not resolve to the same entry — a higher-priority hit on its other
identifier wins.  Here `priR1` becomes a tracked-only entry keyed "X" and
registers the alias "X" to "X", yet `priR2`, sharing the external
identifier "X", resolves to the external canonical id "M" through its
internal identifier. -/
theorem c10_counterexample :
    resolveCanonical (st0Of [priExt]) priR1 = none ∧
    fallbackCanonical (exMapOf [priExt]) priR1 = none ∧
    (stepR (exMapOf [priExt]) (st0Of [priExt]) priR1).2 = "X" ∧
    (stepR (exMapOf [priExt]) (st0Of [priExt]) priR1).1.aliasMap.get? "X" = some "X" ∧
    uExt priR2 = some "X" ∧ uExt priR1 = some "X" ∧
    resolveCanonical (stepR (exMapOf [priExt]) (st0Of [priExt]) priR1).1 priR2 =
      some "M" ∧
    ("M" : String) ≠ "X" :=
  ⟨by decide, by decide, by decide, by decide, by decide, by decide, by decide,
    by decide⟩

/-- Claim C10, amended: when a tracked record becomes a tracked-only entry
keyed `K`, both of its identifiers are registered in the alias map pointing
at `K`; a later record sharing the external identifier resolves to `K`
provided no higher-priority lookup fires first (its internal id hits no
items-map key), and a later record sharing the internal identifier and
carrying no external identifier resolves to `K` directly — in both cases it
merges onto that same entry rather than creating a second tracked-only
entry. -/
theorem c10_theorem (exMap : JMap Item) (st : St) (r1 : UMS)
    (h1 : resolveCanonical st r1 = none) (h2 : fallbackCanonical exMap r1 = none) :
    (∀ x, uExt r1 = some x →
      (stepR exMap st r1).1.aliasMap.get? x = some (stepR exMap st r1).2) ∧
    (∀ y, uInt r1 = some y →
      (stepR exMap st r1).1.aliasMap.get? y = some (stepR exMap st r1).2) ∧
    (stepR exMap st r1).1.itemsMap.has (stepR exMap st r1).2 = true ∧
    (∀ r2 x, uExt r1 = some x → uExt r2 = some x →
      (∀ z, uInt r2 = some z → (stepR exMap st r1).1.itemsMap.has z = false) →
      resolveCanonical (stepR exMap st r1).1 r2 = some (stepR exMap st r1).2 ∧
      (stepR exMap (stepR exMap st r1).1 r2).2 = (stepR exMap st r1).2) ∧
    (∀ r2 y, uInt r1 = some y → uInt r2 = some y → uExt r2 = none →
      resolveCanonical (stepR exMap st r1).1 r2 = some (stepR exMap st r1).2 ∧
      (stepR exMap (stepR exMap st r1).1 r2).2 = (stepR exMap st r1).2) := by
  have hstep : stepR exMap st r1 =
      (⟨st.itemsMap.set (newKeyOf r1) (mkNewItem r1),
        registerAliases st.aliasMap r1 (newKeyOf r1)⟩, newKeyOf r1) := by
    unfold stepR
    rw [h1, h2]
  have hA : (stepR exMap st r1).1.aliasMap =
      registerAliases st.aliasMap r1 (newKeyOf r1) := by rw [hstep]
  have hI : (stepR exMap st r1).1.itemsMap =
      st.itemsMap.set (newKeyOf r1) (mkNewItem r1) := by rw [hstep]
  have hK : (stepR exMap st r1).2 = newKeyOf r1 := by rw [hstep]
  refine ⟨?_, ?_, ?_, ?_, ?_⟩
  · intro x hx
    rw [hA, hK]
    exact registerAliases_get_uExt _ _ _ _ hx
  · intro y hy
    rw [hA, hK]
    exact registerAliases_get_uInt _ _ _ _ hy
  · rw [hI, hK, has_set]
    exact Or.inl rfl
  · intro r2 x hx1 hx2 hz
    have hres : resolveCanonical (stepR exMap st r1).1 r2 = some (newKeyOf r1) := by
      unfold resolveCanonical chkDirect chkAlias
      cases hi2 : uInt r2 with
      | none =>
        simp [hi2, hx2, hA,
          registerAliases_get_uExt st.aliasMap r1 (newKeyOf r1) x hx1]
      | some z =>
        simp [hi2, hz z hi2, hx2, hA,
          registerAliases_get_uExt st.aliasMap r1 (newKeyOf r1) x hx1]
    refine ⟨by rw [hres, hK], ?_⟩
    rw [stepR_landed, hres, hK]
  · intro r2 y hy1 hy2 he2
    have hky : newKeyOf r1 = y := newKeyOf_uInt r1 y hy1
    have hhas : (stepR exMap st r1).1.itemsMap.has y = true := by
      rw [hI, hky, has_set]
      exact Or.inl rfl
    have hres : resolveCanonical (stepR exMap st r1).1 r2 = some y := by
      unfold resolveCanonical chkDirect chkAlias
      simp [hy2, hhas]
    refine ⟨by rw [hres, hK, hky], ?_⟩
    rw [stepR_landed, hres, hK, hky]

/-- Witness for the amended C10: `priR3` shares only the external identifier
"X" with the tracked-only `priR1` and does merge onto its entry. -/
theorem c10_witness :
    resolveCanonical (st0Of [priExt]) priR1 = none ∧
    fallbackCanonical (exMapOf [priExt]) priR1 = none ∧
    resolveCanonical (stepR (exMapOf [priExt]) (st0Of [priExt]) priR1).1 priR3 =
      some (stepR (exMapOf [priExt]) (st0Of [priExt]) priR1).2 := by
  have h := (c10_theorem (exMapOf [priExt]) (st0Of [priExt]) priR1
    (by decide) (by decide)).2.2.2.1 priR3 "X" (by decide) (by decide)
    (fun z hz => by cases hz)
  exact ⟨by decide, by decide, h.1⟩

-- ## Degradation of missing fields

/-- Claim C8, as stated, is false in one detail: a missing title does not
degrade to the empty string on an external item — it degrades to the
constant "Untitled" (the tracked-only path does use the empty string). -/
theorem c8_counterexample :
    bareExt.title = none ∧
    (reconcile "BOOKS" [bareExt] []).map Item.title = ["Untitled"] ∧
    (reconcile "BOOKS" [bareExt] []).map Item.title ≠ [""] :=
  ⟨by decide, by decide, by decide⟩

/-- Claim C8, amended: the reconciler is total over its input domain — it is
embedded here as a total pure function, defined on every pair of input
lists, including records with every field absent — and missing fields
degrade to constants: a missing title becomes "Untitled" on an external
item and "" on a tracked-only entry, while absent optional fields (year,
rating, status) stay absent. -/
theorem c8_theorem :
    (∀ m : ExtRaw, m.title = none → (mkExternalItem m).title = "Untitled") ∧
    (∀ ums : UMS, (mediaOf ums).title = none → (mkNewItem ums).title = "") ∧
    (∀ m : ExtRaw, m.releaseDate = none → (mkExternalItem m).year = JVal.undefined) ∧
    (∀ m : ExtRaw, m.rating = none → (mkExternalItem m).rating = none) ∧
    (∀ ums : UMS, (mediaOf ums).releaseDate = none → (mkNewItem ums).year = JVal.undefined) ∧
    (∀ ums : UMS, ums.rating = none → (mkNewItem ums).rating = none) ∧
    (∀ ums : UMS, ums.status = none → (mkNewItem ums).status = none) := by
  refine ⟨?_, ?_, ?_, ?_, ?_, ?_, ?_⟩
  · intro m h
    simp [mkExternalItem, h]
  · intro ums h
    simp [mkNewItem, h]
  · intro m h
    simp [mkExternalItem, h]
    decide
  · intro m h
    simp [mkExternalItem, h]
  · intro ums h
    simp [mkNewItem, h]
    decide
  · intro ums h
    simp [mkNewItem, h]
  · intro ums h
    simp [mkNewItem, h]

/-- Witness for the amended C8 at concrete records with absent fields. -/
theorem c8_witness :
    bareExt.title = none ∧ (mkExternalItem bareExt).title = "Untitled" ∧
    blankR.rating = none ∧ (mkNewItem blankR).rating = none :=
  ⟨by decide, c8_theorem.1 bareExt (by decide), by decide,
    c8_theorem.2.2.2.2.2.1 blankR (by decide)⟩

-- ## Forall₂ machinery for the structural invariant

theorem extDerivedb_refl (d : Item) : extDerivedb d d = true := by
  simp [extDerivedb]

theorem extDerivedb_mergeOnto (b : Item) (u : UMS) (e : Item) :
    extDerivedb (mergeOnto b u) e = extDerivedb b e := by
  simp [extDerivedb, mergeOnto]

theorem extDerivedb_id (d e : Item) (h : extDerivedb d e = true) : d.id = e.id := by
  simp [extDerivedb] at h
  exact h.1

theorem forall2_seed (l : List Item) :
    List.Forall₂ (fun e p => p.1 = e.id ∧ extDerivedb p.2 e = true) l
      (l.map (fun it => (it.id, it))) := by
  induction l with
  | nil => exact List.Forall₂.nil
  | cons it rest ih => exact List.Forall₂.cons ⟨rfl, extDerivedb_refl it⟩ ih

theorem forall2_keys {ext : List Item} {E : List (String × Item)}
    (h : List.Forall₂ (fun e p => p.1 = e.id ∧ extDerivedb p.2 e = true) ext E) :
    E.map Prod.fst = ext.map Item.id := by
  induction h with
  | nil => rfl
  | cons hR _ ih => simp [ih, hR.1]

theorem forall2_out {ext : List Item} {E : List (String × Item)}
    (h : List.Forall₂ (fun e p => p.1 = e.id ∧ extDerivedb p.2 e = true) ext E) :
    List.Forall₂ (fun d e => extDerivedb d e = true) (E.map Prod.snd) ext := by
  induction h with
  | nil => exact List.Forall₂.nil
  | cons hR _ ih => exact List.Forall₂.cons hR.2 ih

theorem forall2_update {ext : List Item} {E : List (String × Item)}
    (h : List.Forall₂ (fun e p => p.1 = e.id ∧ extDerivedb p.2 e = true) ext E)
    (c : String) (u : UMS) (b : Item) (hb : lookupL E c = some b) :
    List.Forall₂ (fun e p => p.1 = e.id ∧ extDerivedb p.2 e = true) ext
      (setL E c (mergeOnto b u)) := by
  induction h with
  | nil => simp [lookupL] at hb
  | @cons e p ext' E' hR hF ih =>
    by_cases hp : p.1 = c
    · have hbp : b = p.2 := by
        simp only [lookupL, if_pos hp, Option.some.injEq] at hb
        exact hb.symm
      subst hbp
      simp only [setL, if_pos hp]
      refine List.Forall₂.cons ⟨?_, ?_⟩ hF
      · rw [← hp]
        exact hR.1
      · rw [extDerivedb_mergeOnto]
        exact hR.2
    · simp only [setL, if_neg hp]
      simp only [lookupL, if_neg hp] at hb
      exact List.Forall₂.cons hR (ih hb)

theorem mem_snd_of_forall2 {ext : List Item} {E : List (String × Item)}
    (h : List.Forall₂ (fun e p => p.1 = e.id ∧ extDerivedb p.2 e = true) ext E)
    (p : String × Item) (hp : p ∈ E) :
    ∃ e ∈ ext, p.1 = e.id ∧ extDerivedb p.2 e = true := by
  induction h with
  | nil => simp at hp
  | @cons e q ext' E' hR hF ih =>
    rcases List.mem_cons.mp hp with h1 | h1
    · subst h1
      exact ⟨e, List.mem_cons_self _ _, hR⟩
    · obtain ⟨e', he', hr'⟩ := ih h1
      exact ⟨e', List.mem_cons_of_mem _ he', hr'⟩

theorem filterMap_lookup {ext : List Item} {E : List (String × Item)}
    (h : List.Forall₂ (fun e p => p.1 = e.id ∧ extDerivedb p.2 e = true) ext E)
    (hNd : (ext.map Item.id).Nodup) :
    ext.filterMap (fun it => lookupL E it.id) = E.map Prod.snd := by
  induction h with
  | nil => rfl
  | @cons e p ext' E' hR hF ih =>
    have hNd' := List.nodup_cons.mp hNd
    rw [List.filterMap_cons]
    have hhead : lookupL (p :: E') e.id = some p.2 := by
      rw [lookupL, if_pos hR.1]
    rw [hhead]
    have htail : ext'.filterMap (fun it => lookupL (p :: E') it.id) =
        ext'.filterMap (fun it => lookupL E' it.id) := by
      apply List.filterMap_congr
      intro it hit
      have : p.1 ≠ it.id := by
        rw [hR.1]
        intro heq
        exact hNd'.1 (heq ▸ List.mem_map_of_mem Item.id hit)
      rw [lookupL, if_neg this]
    rw [htail, ih hNd'.2, List.map_cons]

theorem countP_derived {ext : List Item} {E : List (String × Item)}
    (h : List.Forall₂ (fun e p => p.1 = e.id ∧ extDerivedb p.2 e = true) ext E)
    (hNd : (ext.map Item.id).Nodup) :
    ∀ e ∈ ext, (E.map Prod.snd).countP (fun d => extDerivedb d e) = 1 := by
  induction h with
  | nil => intro e he; simp at he
  | @cons e0 p ext' E' hR hF ih =>
    intro e he
    have hNd' := List.nodup_cons.mp hNd
    rw [List.map_cons, List.countP_cons]
    rcases List.mem_cons.mp he with h1 | h1
    · subst h1
      have hz : (E'.map Prod.snd).countP (fun d => extDerivedb d e) = 0 := by
        rw [List.countP_eq_zero]
        intro d hd
        obtain ⟨q, hq, rfl⟩ := List.mem_map.mp hd
        obtain ⟨e', he', _, hde'⟩ := mem_snd_of_forall2 hF q hq
        intro hcontra
        have h1 : q.2.id = e'.id := extDerivedb_id _ _ hde'
        have h2 : q.2.id = e.id := extDerivedb_id _ _ hcontra
        apply hNd'.1
        rw [← h2, h1]
        exact List.mem_map_of_mem Item.id he'
      rw [hz, hR.2]
      rfl
    · have hhead : extDerivedb p.2 e = false := by
        cases hc : extDerivedb p.2 e with
        | false => rfl
        | true =>
          exfalso
          have ha : p.2.id = e0.id := extDerivedb_id _ _ hR.2
          have hb : p.2.id = e.id := extDerivedb_id _ _ hc
          apply hNd'.1
          rw [← ha, hb]
          exact List.mem_map_of_mem Item.id h1
      rw [hhead, ih hNd'.2 e h1]
      simp

-- ## Freshness of synthesized keys

theorem has_eq_false_iff {β : Type} (m : JMap β) (k : String) :
    m.has k = false ↔ k ∉ m.keys := by
  rw [Bool.eq_false_iff]
  exact not_congr (has_iff_mem_keys m k)

theorem resolveCanonical_none_parts (st : St) (r : UMS)
    (h : resolveCanonical st r = none) :
    chkDirect st.itemsMap (uInt r) = none ∧ chkAlias st.aliasMap (uExt r) = none ∧
    chkDirect st.itemsMap (uExt r) = none ∧ chkAlias st.aliasMap (uInt r) = none := by
  unfold resolveCanonical at h
  cases h1 : chkDirect st.itemsMap (uInt r) with
  | some c => rw [h1] at h; cases h
  | none =>
    rw [h1] at h
    cases h2 : chkAlias st.aliasMap (uExt r) with
    | some c => rw [h2] at h; cases h
    | none =>
      rw [h2] at h
      cases h3 : chkDirect st.itemsMap (uExt r) with
      | some c => rw [h3] at h; cases h
      | none =>
        rw [h3] at h
        exact ⟨rfl, rfl, rfl, h⟩

theorem chkDirect_none (im : JMap Item) (u : Option String) (k : String)
    (hu : u = some k) (h : chkDirect im u = none) : im.has k = false := by
  subst hu
  unfold chkDirect at h
  by_cases hk : im.has k = true
  · simp [hk] at h
  · rw [Bool.not_eq_true] at hk
    exact hk

theorem newKeyOf_uExt (ums : UMS) (x : String) (h1 : uInt ums = none)
    (h2 : uExt ums = some x) : newKeyOf ums = x := by
  unfold uInt at h1
  unfold uExt at h2
  by_cases t1 : truthyS (mediaOf ums).mediaId
  · simp [t1] at h1
  · by_cases t2 : truthyS (mediaOf ums).externalMediaId
    · simp [t2] at h2
      unfold newKeyOf orS
      simp [t1, t2, h2]
    · simp [t2] at h2

theorem trackedOnly_key_fresh (st : St) (r : UMS)
    (h : resolveCanonical st r = none) :
    (uInt r = none ∧ uExt r = none) ∨ st.itemsMap.has (newKeyOf r) = false := by
  obtain ⟨h1, _, h3, _⟩ := resolveCanonical_none_parts st r h
  cases hi : uInt r with
  | some y =>
    right
    rw [newKeyOf_uInt r y hi]
    exact chkDirect_none st.itemsMap (uInt r) y hi h1
  | none =>
    cases he : uExt r with
    | some x =>
      right
      rw [newKeyOf_uExt r x hi he]
      exact chkDirect_none st.itemsMap (uExt r) x he h3
    | none => exact Or.inl ⟨rfl, rfl⟩

theorem stepR_exists_set (exMap : JMap Item) (st : St) (r : UMS) :
    ∃ key val, (stepR exMap st r).1 =
      ⟨st.itemsMap.set key val, registerAliases st.aliasMap r key⟩ ∧
      (stepR exMap st r).2 = key := by
  unfold stepR
  cases resolveCanonical st r with
  | some c => exact ⟨c, _, rfl, rfl⟩
  | none =>
    cases fallbackCanonical exMap r with
    | some c => exact ⟨c, _, rfl, rfl⟩
    | none => exact ⟨newKeyOf r, _, rfl, rfl⟩

theorem stepR_has_mono (exMap : JMap Item) (st : St) (r : UMS) (k : String)
    (h : st.itemsMap.has k = true) : (stepR exMap st r).1.itemsMap.has k = true := by
  obtain ⟨key, val, h1, _⟩ := stepR_exists_set exMap st r
  rw [h1, has_set]
  exact Or.inr h

theorem stepR_has_self (exMap : JMap Item) (st : St) (r : UMS) :
    (stepR exMap st r).1.itemsMap.has ((stepR exMap st r).2) = true := by
  obtain ⟨key, val, h1, h2⟩ := stepR_exists_set exMap st r
  rw [h1, h2, has_set]
  exact Or.inl rfl

theorem runTracked_has_mono (exMap : JMap Item) (tracked : List UMS) (st : St)
    (k : String) (h : st.itemsMap.has k = true) :
    (runTracked exMap st tracked).itemsMap.has k = true := by
  induction tracked generalizing st with
  | nil => exact h
  | cons r rest ih =>
    rw [runTracked_cons]
    exact ih _ (stepR_has_mono exMap st r k h)

-- ## The landed-keys accumulator

theorem landedKeys_cons (exMap : JMap Item) (st : St) (r : UMS) (rest : List UMS) :
    landedKeys exMap st (r :: rest) =
      (stepR exMap st r).2 :: landedKeys exMap (stepR exMap st r).1 rest := rfl

theorem landedKeys_length (exMap : JMap Item) (tracked : List UMS) (st : St) :
    (landedKeys exMap st tracked).length = tracked.length := by
  induction tracked generalizing st with
  | nil => rfl
  | cons r rest ih =>
    rw [landedKeys_cons]
    simp [ih]

theorem landed_in_final (exMap : JMap Item) (tracked : List UMS) (st : St) :
    ∀ k ∈ landedKeys exMap st tracked,
      (runTracked exMap st tracked).itemsMap.has k = true := by
  induction tracked generalizing st with
  | nil => intro k hk; simp [landedKeys] at hk
  | cons r rest ih =>
    intro k hk
    rw [landedKeys_cons] at hk
    rw [runTracked_cons]
    rcases List.mem_cons.mp hk with h1 | h1
    · subst h1
      exact runTracked_has_mono exMap rest _ _ (stepR_has_self exMap st r)
    · exact ih _ k h1

-- ## The seeded structural state

theorem foldl_seed_entries (items : List Item) (acc : JMap Item)
    (hacc : ∀ it ∈ items, acc.has it.id = false)
    (hn : (items.map Item.id).Nodup) :
    (items.foldl (fun im it => im.set it.id it) acc).entries =
      acc.entries ++ items.map (fun it => (it.id, it)) := by
  induction items generalizing acc with
  | nil => simp
  | cons it rest ih =>
    simp only [List.foldl_cons, List.map_cons]
    have hset : (acc.set it.id it).entries = acc.entries ++ [(it.id, it)] := by
      unfold JMap.set
      apply setL_not_mem
      intro hmem
      have hh : acc.has it.id = true := (has_iff_mem_keys _ _).mpr hmem
      rw [hacc it (List.mem_cons_self _ _)] at hh
      cases hh
    rw [ih (acc.set it.id it) ?hAcc (List.nodup_cons.mp hn).2, hset]
    · simp
    case hAcc =>
      intro it' hit'
      cases hb : (acc.set it.id it).has it'.id with
      | false => rfl
      | true =>
        exfalso
        rcases (has_set _ _ _ _).mp hb with he | he
        · exact (List.nodup_cons.mp hn).1 (he ▸ List.mem_map_of_mem Item.id hit')
        · rw [hacc it' (List.mem_cons_of_mem _ hit')] at he
          cases he

theorem seedItems_entries (items : List Item) (hn : (items.map Item.id).Nodup) :
    (seedItems items).entries = items.map (fun it => (it.id, it)) := by
  have h := foldl_seed_entries items ⟨[]⟩ (by intro it _; rfl) hn
  simpa [seedItems] using h

theorem inv5_to_inv1 (external : List ExtRaw) (preKeys landed : List String)
    (st : St) (E T : List (String × Item))
    (h : Inv5 (exMapOf external) (extItemsOf external) preKeys landed st E T) :
    Inv1 (exMapOf external) st := by
  refine ⟨h.nodupKeys, h.idEqKey, h.aliasRange, ?_⟩
  intro k hk
  have h1 : k ∈ extIdsOf external := (exMapOf_has external k).mp hk
  rw [has_iff_mem_keys]
  unfold JMap.keys
  rw [h.split, List.map_append]
  apply List.mem_append_left
  rw [forall2_keys h.derived]
  exact h1

theorem inv5_set_merge (external : List ExtRaw) (st : St)
    (E T : List (String × Item)) (preKeys landed : List String) (r : UMS) (c : String)
    (hInv : Inv5 (exMapOf external) (extItemsOf external) preKeys landed st E T)
    (hhas : st.itemsMap.has c = true) :
    ∃ E' T', Inv5 (exMapOf external) (extItemsOf external) (preKeys ++ [newKeyOf r])
      (landed ++ [c])
      ⟨st.itemsMap.set c (mergeOnto (baseFor (exMapOf external) st c) r),
        registerAliases st.aliasMap r c⟩ E' T' := by
  obtain ⟨b, hb⟩ := Option.isSome_iff_exists.mp hhas
  have hbf : baseFor (exMapOf external) st c = b := baseFor_of_get _ st c b hb
  have hbid : b.id = c := hInv.idEqKey (c, b) (lookupL_mem _ _ _ hb)
  have hent : (st.itemsMap.set c
      (mergeOnto (baseFor (exMapOf external) st c) r)).entries =
      setL (E ++ T) c (mergeOnto b r) := by
    rw [hbf]
    show setL st.itemsMap.entries c (mergeOnto b r) = _
    rw [hInv.split]
  have hlookup : lookupL (E ++ T) c = some b := by
    have heq : st.itemsMap.get? c = lookupL (E ++ T) c := by
      unfold JMap.get?
      rw [hInv.split]
    rw [← heq]
    exact hb
  have hcKeys : c ∈ (E ++ T).map Prod.fst := by
    have h1 : c ∈ st.itemsMap.keys := (has_iff_mem_keys _ _).mp hhas
    unfold JMap.keys at h1
    rw [hInv.split] at h1
    exact h1
  have hidK : ∀ p ∈ setL (E ++ T) c (mergeOnto b r), p.2.id = p.1 := by
    intro p hp
    rcases mem_setL _ _ _ _ hp with h1 | h1
    · rw [h1]
      show (mergeOnto b r).id = c
      rw [mergeOnto_id, hbid]
    · apply hInv.idEqKey
      rw [hInv.split]
      exact h1
  have hnodup : ((setL (E ++ T) c (mergeOnto b r)).map Prod.fst).Nodup := by
    have hn := hInv.nodupKeys
    unfold JMap.keys at hn
    rw [hInv.split] at hn
    exact nodup_keys_setL _ _ _ hn
  have haliasNew : ∀ q ∈ (registerAliases st.aliasMap r c).entries,
      (st.itemsMap.set c
        (mergeOnto (baseFor (exMapOf external) st c) r)).has q.2 = true := by
    intro q hq
    rcases mem_registerAliases _ _ _ _ hq with h1 | h1
    · rw [h1, has_set]
      exact Or.inl rfl
    · rw [has_set]
      exact Or.inr (hInv.aliasRange q h1)
  by_cases hcE : c ∈ E.map Prod.fst
  · refine ⟨setL E c (mergeOnto b r), T, ?_, ?_, ?_, ?_, ?_, ?_, ?_, ?_⟩
    · show (st.itemsMap.set c (mergeOnto (baseFor (exMapOf external) st c) r)).entries = _
      rw [hent, setL_append, if_pos hcE]
    · apply forall2_update hInv.derived
      rw [← lookupL_append_left E T c hcE]
      exact hlookup
    · exact hInv.tailFresh
    · intro k hk
      exact List.mem_append_left _ (hInv.tailFromPre k hk)
    · exact hInv.tailLanded.trans (List.sublist_append_left landed [c])
    · show ((st.itemsMap.set c
        (mergeOnto (baseFor (exMapOf external) st c) r)).entries.map Prod.fst).Nodup
      rw [hent]
      exact hnodup
    · intro p hp
      rw [show (st.itemsMap.set c
          (mergeOnto (baseFor (exMapOf external) st c) r)).entries =
          setL (E ++ T) c (mergeOnto b r) from hent] at hp
      exact hidK p hp
    · exact haliasNew
  · have hcT : c ∈ T.map Prod.fst := by
      rw [List.map_append] at hcKeys
      rcases List.mem_append.mp hcKeys with h | h
      · exact absurd h hcE
      · exact h
    refine ⟨E, setL T c (mergeOnto b r), ?_, ?_, ?_, ?_, ?_, ?_, ?_, ?_⟩
    · show (st.itemsMap.set c (mergeOnto (baseFor (exMapOf external) st c) r)).entries = _
      rw [hent, setL_append, if_neg hcE]
    · exact hInv.derived
    · intro p hp
      rcases mem_setL _ _ _ _ hp with h1 | h1
      · rw [h1]
        obtain ⟨q, hq, hq1⟩ := List.mem_map.mp hcT
        show c ∉ (extItemsOf external).map Item.id
        rw [← hq1]
        exact hInv.tailFresh q hq
      · exact hInv.tailFresh p h1
    · intro k hk
      rw [keys_setL_mem T c _ hcT] at hk
      exact List.mem_append_left _ (hInv.tailFromPre k hk)
    · rw [keys_setL_mem T c _ hcT]
      exact hInv.tailLanded.trans (List.sublist_append_left landed [c])
    · show ((st.itemsMap.set c
        (mergeOnto (baseFor (exMapOf external) st c) r)).entries.map Prod.fst).Nodup
      rw [hent]
      exact hnodup
    · intro p hp
      rw [show (st.itemsMap.set c
          (mergeOnto (baseFor (exMapOf external) st c) r)).entries =
          setL (E ++ T) c (mergeOnto b r) from hent] at hp
      exact hidK p hp
    · exact haliasNew

theorem inv5_set_new (external : List ExtRaw) (st : St)
    (E T : List (String × Item)) (preKeys landed : List String) (r : UMS)
    (hInv : Inv5 (exMapOf external) (extItemsOf external) preKeys landed st E T)
    (hfresh : st.itemsMap.has (newKeyOf r) = false) :
    ∃ E' T', Inv5 (exMapOf external) (extItemsOf external) (preKeys ++ [newKeyOf r])
      (landed ++ [newKeyOf r])
      ⟨st.itemsMap.set (newKeyOf r) (mkNewItem r),
        registerAliases st.aliasMap r (newKeyOf r)⟩ E' T' := by
  have hnotmem : newKeyOf r ∉ st.itemsMap.keys := (has_eq_false_iff _ _).mp hfresh
  have hnotmemE : newKeyOf r ∉ st.itemsMap.entries.map Prod.fst := hnotmem
  have hent : (st.itemsMap.set (newKeyOf r) (mkNewItem r)).entries =
      (E ++ T) ++ [(newKeyOf r, mkNewItem r)] := by
    show setL st.itemsMap.entries _ _ = _
    rw [setL_not_mem _ _ _ hnotmemE, hInv.split]
  have hkfresh : newKeyOf r ∉ (extItemsOf external).map Item.id := by
    intro hmem
    apply hnotmem
    unfold JMap.keys
    rw [hInv.split, List.map_append]
    apply List.mem_append_left
    rw [forall2_keys hInv.derived]
    exact hmem
  refine ⟨E, T ++ [(newKeyOf r, mkNewItem r)], ?_, ?_, ?_, ?_, ?_, ?_, ?_, ?_⟩
  · show (st.itemsMap.set (newKeyOf r) (mkNewItem r)).entries = _
    rw [hent]
    exact List.append_assoc E T _
  · exact hInv.derived
  · intro p hp
    rcases List.mem_append.mp hp with h1 | h1
    · exact hInv.tailFresh p h1
    · rw [List.mem_singleton.mp h1]
      exact hkfresh
  · intro k hk
    rw [List.map_append] at hk
    rcases List.mem_append.mp hk with h1 | h1
    · exact List.mem_append_left _ (hInv.tailFromPre k h1)
    · simp only [List.map_cons, List.map_nil, List.mem_singleton] at h1
      rw [h1]
      exact List.mem_append_right _ (List.mem_singleton.mpr rfl)
  · have hmap : (T ++ [(newKeyOf r, mkNewItem r)]).map Prod.fst =
        T.map Prod.fst ++ [newKeyOf r] := by simp
    rw [hmap]
    exact List.Sublist.append hInv.tailLanded (List.Sublist.refl _)
  · exact nodup_keys_setL _ _ _ hInv.nodupKeys
  · intro p hp
    rcases mem_setL st.itemsMap.entries _ _ p hp with h1 | h1
    · rw [h1]
      exact mkNewItem_id r
    · exact hInv.idEqKey p h1
  · intro q hq
    rcases mem_registerAliases _ _ _ _ hq with h1 | h1
    · rw [h1, has_set]
      exact Or.inl rfl
    · rw [has_set]
      exact Or.inr (hInv.aliasRange q h1)

theorem inv5_step (external : List ExtRaw) (st : St)
    (E T : List (String × Item)) (preKeys landed : List String) (r : UMS)
    (hSafe : uInt r = none → uExt r = none →
      newKeyOf r ∉ extIdsOf external ∧ newKeyOf r ∉ preKeys)
    (hInv : Inv5 (exMapOf external) (extItemsOf external) preKeys landed st E T) :
    ∃ E' T', Inv5 (exMapOf external) (extItemsOf external) (preKeys ++ [newKeyOf r])
      (landed ++ [(stepR (exMapOf external) st r).2])
      (stepR (exMapOf external) st r).1 E' T' := by
  cases hr : resolveCanonical st r with
  | some c =>
    have hhas := resolveCanonical_has st r c hInv.aliasRange hr
    have h1 : (stepR (exMapOf external) st r).1 =
        ⟨st.itemsMap.set c (mergeOnto (baseFor (exMapOf external) st c) r),
          registerAliases st.aliasMap r c⟩ := by
      unfold stepR
      rw [hr]
    have h2 : (stepR (exMapOf external) st r).2 = c := by
      unfold stepR
      rw [hr]
    rw [h1, h2]
    exact inv5_set_merge external st E T preKeys landed r c hInv hhas
  | none =>
    cases hf : fallbackCanonical (exMapOf external) r with
    | some c =>
      have hcExt : c ∈ extIdsOf external := fallbackCanonical_has external r c hf
      have hhas : st.itemsMap.has c = true := by
        rw [has_iff_mem_keys]
        unfold JMap.keys
        rw [hInv.split, List.map_append]
        apply List.mem_append_left
        rw [forall2_keys hInv.derived]
        exact hcExt
      have h1 : (stepR (exMapOf external) st r).1 =
          ⟨st.itemsMap.set c (mergeOnto (baseFor (exMapOf external) st c) r),
            registerAliases st.aliasMap r c⟩ := by
        unfold stepR
        rw [hr, hf]
      have h2 : (stepR (exMapOf external) st r).2 = c := by
        unfold stepR
        rw [hr, hf]
      rw [h1, h2]
      exact inv5_set_merge external st E T preKeys landed r c hInv hhas
    | none =>
      have h1 : (stepR (exMapOf external) st r).1 =
          ⟨st.itemsMap.set (newKeyOf r) (mkNewItem r),
            registerAliases st.aliasMap r (newKeyOf r)⟩ := by
        unfold stepR
        rw [hr, hf]
      have h2 : (stepR (exMapOf external) st r).2 = newKeyOf r := by
        unfold stepR
        rw [hr, hf]
      rw [h1, h2]
      have hfresh : st.itemsMap.has (newKeyOf r) = false := by
        rcases trackedOnly_key_fresh st r hr with ⟨hi, he⟩ | hfr
        · obtain ⟨hn1, hn2⟩ := hSafe hi he
          rw [has_eq_false_iff]
          intro hmem
          unfold JMap.keys at hmem
          rw [hInv.split, List.map_append] at hmem
          rcases List.mem_append.mp hmem with hm | hm
          · rw [forall2_keys hInv.derived] at hm
            exact hn1 hm
          · exact hn2 (hInv.tailFromPre _ hm)
        · exact hfr
      exact inv5_set_new external st E T preKeys landed r hInv hfresh

theorem runTracked_inv5 (external : List ExtRaw) (tracked : List UMS) :
    ∀ (pre : List UMS) (st : St) (E T : List (String × Item)) (landed : List String),
    rowSafe external (pre ++ tracked) →
    Inv5 (exMapOf external) (extItemsOf external) (pre.map newKeyOf) landed st E T →
    ∃ E' T', Inv5 (exMapOf external) (extItemsOf external)
      ((pre ++ tracked).map newKeyOf)
      (landed ++ landedKeys (exMapOf external) st tracked)
      (runTracked (exMapOf external) st tracked) E' T' := by
  induction tracked with
  | nil =>
    intro pre st E T landed _ hInv
    have h0 : landedKeys (exMapOf external) st [] = [] := rfl
    rw [List.append_nil pre, h0, List.append_nil landed]
    exact ⟨E, T, hInv⟩
  | cons r rest ih =>
    intro pre st E T landed hSafe hInv
    have hSafeR : uInt r = none → uExt r = none →
        newKeyOf r ∉ extIdsOf external ∧ newKeyOf r ∉ pre.map newKeyOf := by
      intro hi he
      obtain ⟨hn1, hcnt⟩ := hSafe r (by simp) hi he
      refine ⟨hn1, ?_⟩
      intro hmem
      have h1 : ((pre ++ r :: rest).map newKeyOf).count (newKeyOf r) =
          (pre.map newKeyOf).count (newKeyOf r) +
          ((r :: rest).map newKeyOf).count (newKeyOf r) := by
        rw [List.map_append, List.count_append]
      have h2 : 0 < (pre.map newKeyOf).count (newKeyOf r) :=
        List.count_pos_iff.mpr hmem
      have h3 : 0 < ((r :: rest).map newKeyOf).count (newKeyOf r) :=
        List.count_pos_iff.mpr (List.mem_map_of_mem newKeyOf (List.mem_cons_self _ _))
      omega
    obtain ⟨E1, T1, hInv1⟩ :=
      inv5_step external st E T (pre.map newKeyOf) landed r hSafeR hInv
    have hpk : pre.map newKeyOf ++ [newKeyOf r] = (pre ++ [r]).map newKeyOf := by simp
    rw [hpk] at hInv1
    have hs' : rowSafe external ((pre ++ [r]) ++ rest) := by
      have heq : (pre ++ [r]) ++ rest = pre ++ r :: rest := by simp
      rw [heq]
      exact hSafe
    obtain ⟨E2, T2, hInv2⟩ := ih (pre ++ [r]) (stepR (exMapOf external) st r).1 E1 T1
      (landed ++ [(stepR (exMapOf external) st r).2]) hs' hInv1
    refine ⟨E2, T2, ?_⟩
    have hl : landed ++ landedKeys (exMapOf external) st (r :: rest) =
        (landed ++ [(stepR (exMapOf external) st r).2]) ++
          landedKeys (exMapOf external) (stepR (exMapOf external) st r).1 rest := by
      rw [landedKeys_cons]
      simp
    have hp2 : (pre ++ r :: rest).map newKeyOf = ((pre ++ [r]) ++ rest).map newKeyOf := by
      simp
    rw [runTracked_cons, hl, hp2]
    exact hInv2

theorem inv5_base (external : List ExtRaw) (hNd : (extIdsOf external).Nodup) :
    Inv5 (exMapOf external) (extItemsOf external) [] [] (st0Of external)
      ((extItemsOf external).map (fun it => (it.id, it))) [] := by
  have h0 := st0_inv1 external
  constructor
  · show (st0Of external).itemsMap.entries = _ ++ ([] : List (String × Item))
    rw [List.append_nil]
    exact seedItems_entries (extItemsOf external) hNd
  · exact forall2_seed (extItemsOf external)
  · intro p hp; simp at hp
  · intro k hk; simp at hk
  · simp
  · exact h0.nodupKeys
  · exact h0.idEqKey
  · exact h0.aliasRange

-- ## The decomposition of the output under the no-collision precondition

theorem reconcile_decomp (wantedType : String) (external : List ExtRaw) (raw : List UMS)
    (hNd : (extIdsOf external).Nodup)
    (hSafe : rowSafe external (filterWanted wantedType raw)) :
    ∃ E T, Inv5 (exMapOf external) (extItemsOf external)
        ((filterWanted wantedType raw).map newKeyOf)
        (assignedKeys wantedType external raw)
        (runTracked (exMapOf external) (st0Of external) (filterWanted wantedType raw))
        E T ∧
      reconcile wantedType external raw = E.map Prod.snd ++ T.map Prod.snd := by
  obtain ⟨E, T, hInv⟩ := runTracked_inv5 external (filterWanted wantedType raw) []
    (st0Of external) ((extItemsOf external).map (fun it => (it.id, it))) [] []
    hSafe
    (show Inv5 (exMapOf external) (extItemsOf external) (([] : List UMS).map newKeyOf)
        [] (st0Of external) ((extItemsOf external).map (fun it => (it.id, it))) []
      from inv5_base external hNd)
  refine ⟨E, T, hInv, ?_⟩
  have hrec : reconcile wantedType external raw =
      (extItemsOf external).filterMap
        (fun it => (runTracked (exMapOf external) (st0Of external)
          (filterWanted wantedType raw)).itemsMap.get? it.id) ++
      (((runTracked (exMapOf external) (st0Of external)
          (filterWanted wantedType raw)).itemsMap.entries.filter
        (fun p => !(exMapOf external).has p.1)).map Prod.snd) := rfl
  rw [hrec]
  congr 1
  · have hstep1 : (extItemsOf external).filterMap
        (fun it => (runTracked (exMapOf external) (st0Of external)
          (filterWanted wantedType raw)).itemsMap.get? it.id) =
        (extItemsOf external).filterMap (fun it => lookupL (E ++ T) it.id) := by
      apply List.filterMap_congr
      intro it _
      unfold JMap.get?
      rw [hInv.split]
    have hstep2 : (extItemsOf external).filterMap (fun it => lookupL (E ++ T) it.id) =
        (extItemsOf external).filterMap (fun it => lookupL E it.id) := by
      apply List.filterMap_congr
      intro it hit
      apply lookupL_append_left
      rw [forall2_keys hInv.derived]
      exact List.mem_map_of_mem Item.id hit
    rw [hstep1, hstep2]
    exact filterMap_lookup hInv.derived hNd
  · rw [hInv.split, List.filter_append]
    have hE0 : E.filter (fun p => !(exMapOf external).has p.1) = [] := by
      rw [List.filter_eq_nil_iff]
      intro p hp
      have hmem : p.1 ∈ extIdsOf external := by
        have h1 := List.mem_map_of_mem Prod.fst hp
        rw [forall2_keys hInv.derived] at h1
        exact h1
      have hhas := (exMapOf_has external p.1).mpr hmem
      simp [hhas]
    have hT1 : T.filter (fun p => !(exMapOf external).has p.1) = T := by
      rw [List.filter_eq_self]
      intro p hp
      have hni : p.1 ∉ extIdsOf external := hInv.tailFresh p hp
      have hfalse : (exMapOf external).has p.1 = false := by
        cases hb : (exMapOf external).has p.1 with
        | false => rfl
        | true => exact absurd ((exMapOf_has external p.1).mp hb) hni
      simp [hfalse]
    rw [hE0, hT1]
    simp

/-- Claim C5, as stated, is false: when a tracked record with no identifiers
has a row id colliding with an external canonical id, its tracked-only entry
overwrites the external entry in place, so the output presents the
tracked-only entry in the external prefix and the external item's data is
gone. -/
theorem c5_counterexample : ¬ claimOrder "BOOKS" [colA, colB] [colR] := by
  unfold claimOrder
  decide

/-- Claim C5, amended: when the external canonical ids are pairwise distinct
and no identifier-less tracked record's row id collides with an external
canonical id or with another record's synthesized key, the output starts
with one entry derived from each external item, in the external list's
original order, followed only by tracked-only entries (ids outside the
external ids), and those tail entries appear in the order their records
were encountered (their ids are a sublist of the landed keys in loop
order). -/
theorem c5_theorem (wantedType : String) (external : List ExtRaw) (raw : List UMS)
    (hNd : (extIdsOf external).Nodup)
    (hSafe : rowSafe external (filterWanted wantedType raw)) :
    claimOrder wantedType external raw ∧
    List.Sublist
      (((reconcile wantedType external raw).drop
        (extItemsOf external).length).map Item.id)
      (assignedKeys wantedType external raw) := by
  obtain ⟨E, T, hInv, hout⟩ := reconcile_decomp wantedType external raw hNd hSafe
  have hlen2 : (extItemsOf external).length = (E.map Prod.snd).length := by
    rw [List.length_map]
    exact hInv.derived.length_eq
  have htake : (reconcile wantedType external raw).take (extItemsOf external).length =
      E.map Prod.snd := by
    rw [hout, hlen2]
    exact List.take_left _ _
  have hdrop : (reconcile wantedType external raw).drop (extItemsOf external).length =
      T.map Prod.snd := by
    rw [hout, hlen2]
    exact List.drop_left _ _
  refine ⟨⟨?_, ?_⟩, ?_⟩
  · rw [htake]
    exact forall2_out hInv.derived
  · intro d hd
    rw [hdrop] at hd
    obtain ⟨p, hp, hpd⟩ := List.mem_map.mp hd
    have hid : p.2.id = p.1 := hInv.idEqKey p
      (by rw [hInv.split]; exact List.mem_append_right _ hp)
    rw [← hpd, hid]
    exact hInv.tailFresh p hp
  · rw [hdrop]
    have hmap : (T.map Prod.snd).map Item.id = T.map Prod.fst := by
      rw [List.map_map]
      apply List.map_congr_left
      intro p hp
      exact hInv.idEqKey p (by rw [hInv.split]; exact List.mem_append_right _ hp)
    rw [hmap]
    exact hInv.tailLanded

/-- Witness for the amended C5 at a concrete collision-free input. -/
theorem c5_witness :
    (extIdsOf [wDuneExt]).Nodup ∧
    rowSafe [wDuneExt] (filterWanted "MOVIE" [wTrack]) ∧
    claimOrder "MOVIE" [wDuneExt] [wTrack] := by
  have h := c5_theorem "MOVIE" [wDuneExt] [wTrack] (by decide)
    (by unfold rowSafe; decide)
  exact ⟨by decide, by unfold rowSafe; decide, h.1⟩

/-- Claim C6, as stated, is false: in the same row-id collision the external
item "Alpha" has no derived entry in the output at all — its map entry was
overwritten wholesale by the tracked-only item. -/
theorem c6_counterexample : ¬ claimComplete "BOOKS" [colA, colB] [colR] := by
  unfold claimComplete
  decide

/-- Claim C6, amended: under distinct external canonical ids and the
row-id no-collision precondition, every external item is represented by
exactly one derived output entry, and every tracked record lands on exactly
one canonical key which is the id of an output entry (it merged there or
created its own tracked-only entry); no input vanishes. -/
theorem c6_theorem (wantedType : String) (external : List ExtRaw) (raw : List UMS)
    (hNd : (extIdsOf external).Nodup)
    (hSafe : rowSafe external (filterWanted wantedType raw)) :
    claimComplete wantedType external raw ∧
    (assignedKeys wantedType external raw).length =
      (filterWanted wantedType raw).length := by
  obtain ⟨E, T, hInv, hout⟩ := reconcile_decomp wantedType external raw hNd hSafe
  refine ⟨⟨?_, ?_⟩, ?_⟩
  · intro e he
    rw [hout, List.countP_append]
    have h1 : (E.map Prod.snd).countP (fun d => extDerivedb d e) = 1 :=
      countP_derived hInv.derived hNd e he
    have h2 : (T.map Prod.snd).countP (fun d => extDerivedb d e) = 0 := by
      rw [List.countP_eq_zero]
      intro d hd
      obtain ⟨p, hp, hpd⟩ := List.mem_map.mp hd
      intro hc
      have hdid : d.id = e.id := extDerivedb_id _ _ hc
      have hpid : p.2.id = p.1 := hInv.idEqKey p
        (by rw [hInv.split]; exact List.mem_append_right _ hp)
      apply hInv.tailFresh p hp
      rw [← hpid, hpd, hdid]
      exact List.mem_map_of_mem Item.id he
    rw [h1, h2]
  · intro k hk
    have hhas : (runTracked (exMapOf external) (st0Of external)
        (filterWanted wantedType raw)).itemsMap.has k = true :=
      landed_in_final (exMapOf external) (filterWanted wantedType raw)
        (st0Of external) k hk
    rw [reconcile_ids]
    by_cases hex : (exMapOf external).has k = true
    · exact List.mem_append_left _ ((exMapOf_has external k).mp hex)
    · apply List.mem_append_right
      have hkm : k ∈ (runTracked (exMapOf external) (st0Of external)
          (filterWanted wantedType raw)).itemsMap.keys :=
        (has_iff_mem_keys _ _).mp hhas
      obtain ⟨p, hp, hpk⟩ := List.mem_map.mp hkm
      apply List.mem_map.mpr
      refine ⟨p, ?_, hpk⟩
      apply List.mem_filter.mpr
      refine ⟨hp, ?_⟩
      rw [Bool.not_eq_true] at hex
      have hfalse : (exMapOf external).has p.1 = false := by
        rw [hpk]
        exact hex
      simp [hfalse]
  · exact landedKeys_length _ _ _

/-- Witness for the amended C6 at a concrete collision-free input. -/
theorem c6_witness :
    (extIdsOf [wDuneExt]).Nodup ∧
    rowSafe [wDuneExt] (filterWanted "MOVIE" [wTrack]) ∧
    (∀ e ∈ extItemsOf [wDuneExt],
      (reconcile "MOVIE" [wDuneExt] [wTrack]).countP (fun d => extDerivedb d e) = 1) := by
  have h := c6_theorem "MOVIE" [wDuneExt] [wTrack] (by decide)
    (by unfold rowSafe; decide)
  exact ⟨by decide, by unfold rowSafe; decide, h.1.1⟩

end OneMedia
